import Mathlib

/-!
Verification of the graph validation and layout engine of the
pipeline-visualizer application.

The executable definitions below are shallow embeddings of the TypeScript
source files `src/utils/validateDAG.ts` (validator, cycle detection, weak
connectivity, adjacency builders) and the node-utility module
(`canConnectNodes`, `wouldCreateCycle`, `autoLayoutNodes`).  JavaScript
`Map<string, string[]>` values are modelled as association lists with
first-occurrence update, JavaScript `Set<string>` values as duplicate-free
lists in insertion order, and the recursive depth-first searches are given
an explicit fuel argument large enough that it can never run out (a bound
proved where needed).  All definitions are structurally recursive so that
they evaluate by `decide`.
-/

structure Pos where
  x : Int
  y : Int
deriving DecidableEq, Repr

/-- Embedding of the react-flow `Node` values as used by the engine:
identity, display label and position (other styling fields of the source
are presentation data never read by the engine). -/
structure Node where
  id : String
  label : String
  position : Pos
deriving DecidableEq, Repr

/-- Embedding of the react-flow `Edge` values: identity and the directed
`source -> target` pair. -/
structure Edge where
  id : String
  source : String
  target : String
deriving DecidableEq, Repr

/-- JavaScript `Set.add` on a set represented as a duplicate-free list in
insertion order: appends the element if it is not already present. -/
def setAdd (s : List String) (x : String) : List String :=
  if x ∈ s then s else s ++ [x]

/-- A JavaScript `Map<string, string[]>` as an association list. -/
abbrev AdjMap := List (String × List String)

/-- `Map.get`: the value at the first matching key, if any. -/
def mapLookup (m : AdjMap) (k : String) : Option (List String) :=
  match m with
  | [] => none
  | (k', v) :: rest => if k' = k then some v else mapLookup rest k

/-- `Map.get(k) || []` as used throughout the source: a missing key reads
as the empty list. -/
def mapGetD (m : AdjMap) (k : String) : List String :=
  (mapLookup m k).getD []

/-- `Map.set`: replace the value at an existing key in place, otherwise
append a new entry. -/
def mapSet (m : AdjMap) (k : String) (v : List String) : AdjMap :=
  match m with
  | [] => [(k, v)]
  | (k', v') :: rest => if k' = k then (k, v) :: rest else (k', v') :: mapSet rest k v

/-- `buildAdjacencyList` from `validateDAG.ts`: every node id is seeded
with an empty list, then each edge appends its target to the list of its
source (creating the entry when the source id is unknown). -/
def buildAdjacencyList (nodeIds : List String) (edges : List Edge) : AdjMap :=
  let init := nodeIds.foldl (fun m nodeId => mapSet m nodeId []) []
  edges.foldl (fun m e => mapSet m e.source (mapGetD m e.source ++ [e.target])) init

/-- One edge of the `buildUndirectedAdjacencyList` loop.  The JavaScript
body reads both endpoint arrays, pushes the opposite endpoint into each,
and writes both back.  For a self-loop on a key already in the map both
reads alias the same array, which consequently receives both pushes; for
a self-loop on an absent key two fresh one-element arrays are built and
the second write wins, leaving a single occurrence. -/
def undirectedEdgeStep (m : AdjMap) (e : Edge) : AdjMap :=
  if e.source = e.target then
    match mapLookup m e.source with
    | some l => mapSet m e.source (l ++ [e.target, e.source])
    | none => mapSet m e.source [e.source]
  else
    mapSet (mapSet m e.source (mapGetD m e.source ++ [e.target])) e.target
      (mapGetD m e.target ++ [e.source])

/-- `buildUndirectedAdjacencyList` from `validateDAG.ts`. -/
def buildUndirectedAdjacencyList (nodeIds : List String) (edges : List Edge) : AdjMap :=
  let init := nodeIds.foldl (fun m nodeId => mapSet m nodeId []) []
  edges.foldl undirectedEdgeStep init

/-- The directed step relation actually stored by the adjacency builder:
`y` is a neighbour of `x` exactly when some edge goes from `x` to `y`. -/
def DirStep (edges : List Edge) (x y : String) : Prop :=
  ∃ e ∈ edges, e.source = x ∧ e.target = y

/-- The undirected step relation stored by the undirected builder. -/
def UndirStep (edges : List Edge) (x y : String) : Prop :=
  ∃ e ∈ edges, (e.source = x ∧ e.target = y) ∨ (e.target = x ∧ e.source = y)

/-- The neighbour relation read off an adjacency map. -/
def AdjRel (adj : AdjMap) (x y : String) : Prop :=
  y ∈ mapGetD adj x

/-- `dfsHasCycle` from `validateDAG.ts`: white/grey/black depth-first
cycle detection with a shared `visited` set and a recursion `stack` set,
returning the flag together with both mutated sets.  The `for` loop over
the neighbours is the fold; once a `return true` fires the remaining
iterations are skipped.  The fuel only decreases on recursive calls and
is chosen large enough at the call site never to reach zero. -/
def dfsHasCycle (adj : AdjMap) : Nat → String → List String → List String →
    Bool × List String × List String
  | 0, _, visited, stack => (false, visited, stack)
  | fuel + 1, nodeId, visited, stack =>
    let visited1 := setAdd visited nodeId
    let stack1 := setAdd stack nodeId
    let res := (mapGetD adj nodeId).foldl
      (fun (acc : Bool × List String × List String) neighbor =>
        match acc with
        | (true, v, s) => (true, v, s)
        | (false, v, s) =>
          if neighbor ∈ v then
            if neighbor ∈ s then (true, v, s) else (false, v, s)
          else dfsHasCycle adj fuel neighbor v s)
      (false, visited1, stack1)
    match res with
    | (true, v, s) => (true, v, s)
    | (false, v, s) => (false, v, s.erase nodeId)

/-- The root loop of `detectCycles`: start a depth-first search from every
not-yet-visited node id, sharing the `visited` set across roots. -/
def cycleRootLoop (adj : AdjMap) (fuel : Nat) :
    List String → List String → List String → Bool
  | [], _, _ => false
  | nodeId :: rest, visited, stack =>
    if nodeId ∈ visited then cycleRootLoop adj fuel rest visited stack
    else
      match dfsHasCycle adj fuel nodeId visited stack with
      | (true, _, _) => true
      | (false, v, s) => cycleRootLoop adj fuel rest v s

/-- Fuel bound for the cycle search: strictly more than the number of
distinct ids that can ever be visited (node ids plus edge endpoints). -/
def cycleFuel (nodes : List Node) (edges : List Edge) : Nat :=
  nodes.length + 2 * edges.length + 1

/-- `detectCycles` from `validateDAG.ts`. -/
def detectCycles (nodes : List Node) (edges : List Edge) : Bool :=
  if nodes.length = 0 || edges.length = 0 then false
  else
    let nodeIds := nodes.map (·.id)
    let adjList := buildAdjacencyList nodeIds edges
    cycleRootLoop adjList (cycleFuel nodes edges) nodeIds [] []

/-- The inner `dfs` of `isWeaklyConnected`: mark the node visited, then
recurse into every not-yet-visited neighbour. -/
def weakDfs (adj : AdjMap) : Nat → List String → String → List String
  | 0, visited, _ => visited
  | fuel + 1, visited, nodeId =>
    (mapGetD adj nodeId).foldl
      (fun vis neighbor => if neighbor ∈ vis then vis else weakDfs adj fuel vis neighbor)
      (setAdd visited nodeId)

/-- Fuel bound for the weak-connectivity search. -/
def weakFuel (nodes : List Node) (edges : List Edge) : Nat :=
  nodes.length + 2 * edges.length + 1

/-- The visited set computed by the depth-first search of
`isWeaklyConnected`, started from the first node id in input order. -/
def weakDfsVisited (nodes : List Node) (edges : List Edge) : List String :=
  let nodeIds := nodes.map (·.id)
  weakDfs (buildUndirectedAdjacencyList nodeIds edges) (weakFuel nodes edges) []
    (nodeIds.headD "")

/-- `isWeaklyConnected` from `validateDAG.ts`. -/
def isWeaklyConnected (nodes : List Node) (edges : List Edge) : Bool :=
  if nodes.length ≤ 1 then true
  else if edges.length = 0 then false
  else (weakDfsVisited nodes edges).length == (nodes.map (·.id)).length

/-- `DAGValidationResult` from `validateDAG.ts` (`hasSelfLoops` is
optional in the TypeScript interface but always populated by the code). -/
structure DAGValidationResult where
  isValid : Bool
  errors : List String
  hasMinNodes : Bool
  hasCycles : Bool
  allNodesConnected : Bool
  hasSelfLoops : Bool
deriving DecidableEq, Repr

/-- `validateDAG` from `validateDAG.ts`: the four checks, their error
messages in push order, and the aggregated `isValid` flag. -/
def validateDAG (nodes : List Node) (edges : List Edge) : DAGValidationResult :=
  let hasMinNodes := decide (2 ≤ nodes.length)
  let minNodeErrors : List String :=
    if !hasMinNodes then
      if nodes.length = 0 then ["No nodes present - click on canvas to add nodes"]
      else if nodes.length = 1 then ["Add at least 1 more node for a valid DAG"]
      else []
    else []
  let hasSelfLoops := edges.any (fun e => e.source == e.target)
  let selfLoopErrors : List String :=
    if hasSelfLoops then ["Self-loops detected - nodes cannot connect to themselves"] else []
  let hasCycles :=
    if 0 < edges.length ∧ 1 < nodes.length then detectCycles nodes edges else false
  let cycleErrors : List String :=
    if hasCycles then ["Cycle detected - remove connections that create loops"] else []
  let allNodesConnected := isWeaklyConnected nodes edges
  let connectionErrors : List String :=
    if !allNodesConnected ∧ 1 < nodes.length then
      if edges.length = 0 then ["No connections between nodes - drag to connect nodes"]
      else ["Some nodes are isolated - ensure all nodes are connected"]
    else []
  let isValid := hasMinNodes && !hasCycles && allNodesConnected && !hasSelfLoops
  { isValid := isValid
    errors := minNodeErrors ++ selfLoopErrors ++ cycleErrors ++ connectionErrors
    hasMinNodes := hasMinNodes
    hasCycles := hasCycles
    allNodesConnected := allNodesConnected
    hasSelfLoops := hasSelfLoops }

/-- `ConnectionDecision` returned by `canConnectNodes`. -/
structure ConnectionDecision where
  canConnect : Bool
  reason : Option String
deriving DecidableEq, Repr

/-- The inner `hasPath` of `wouldCreateCycle`: a depth-first reachability
search with a shared `visited` set.  `from === to` counts as a path before
the visited check; the loop over the outgoing edges of `from` is the fold,
skipping the rest once a `return true` fires. -/
def hasPathDfs (edges : List Edge) (toId : String) :
    Nat → List String → String → Bool × List String
  | 0, visited, _ => (false, visited)
  | fuel + 1, visited, fromId =>
    if fromId = toId then (true, visited)
    else if fromId ∈ visited then (false, visited)
    else
      ((edges.filter (fun e => e.source == fromId)).map (fun e => e.target)).foldl
        (fun (acc : Bool × List String) t =>
          match acc with
          | (true, v) => (true, v)
          | (false, v) => hasPathDfs edges toId fuel v t)
        (false, setAdd visited fromId)

/-- `wouldCreateCycle` from the node-utility module: adding
`sourceId -> targetId` would create a cycle when a directed path from
`targetId` back to `sourceId` already exists. -/
def wouldCreateCycle (sourceId targetId : String) (edges : List Edge) : Bool :=
  (hasPathDfs edges sourceId (edges.length + 2) [] targetId).1

/-- `canConnectNodes` from the node-utility module.  The source also
builds a `tempEdges` array that it never uses; it is omitted here. -/
def canConnectNodes (sourceNodeId targetNodeId : String) (edges : List Edge) :
    ConnectionDecision :=
  if sourceNodeId = targetNodeId then
    { canConnect := false, reason := some "Cannot connect node to itself" }
  else
    let connectionExists :=
      edges.any (fun e => e.source == sourceNodeId && e.target == targetNodeId)
    if connectionExists then
      { canConnect := false, reason := some "Connection already exists" }
    else if wouldCreateCycle sourceNodeId targetNodeId edges then
      { canConnect := false, reason := some "Would create a cycle" }
    else
      { canConnect := true, reason := none }

/-- Modelled from the spec: the rank computation of the external `dagre`
library used by `autoLayoutNodes` (the library itself is not part of this
repository).  Following section 4.5 of the specification, the rank of a
node is the length of the longest directed path ending at it, computed by
a number of propagation passes bounded by the node count, with
`rank[target] = max(rank[target], rank[source] + 1)` propagated along
every edge in input order, so the computation is total even on cyclic
graphs. -/
def computeRanks (nodeIds : List String) (edges : List Edge) : String → Nat :=
  (List.range nodeIds.length).foldl
    (fun r _ =>
      edges.foldl
        (fun r e x => if x = e.target then max (r x) (r e.source + 1) else r x) r)
    (fun _ => 0)

/-- Modelled from the spec: the position `dagre` assigns to a node, as
described in section 4.5 — nodes are grouped into horizontal bands by
rank (vertical spacing `ranksep 100` plus the node height 50), ordered
within a band by input order (horizontal slot `nodesep 80` plus the node
width 150), and centred by subtracting half the node extent (75, 25) as
the source does after the library call. -/
def layoutPosition (nodeIds : List String) (edges : List Edge) (nodeId : String) : Pos :=
  let rank := computeRanks nodeIds edges
  let r := rank nodeId
  let band := nodeIds.filter (fun i => rank i == r)
  let idx := (band.takeWhile (fun i => i != nodeId)).length
  { x := (idx : Int) * 230 - 75, y := (r : Int) * 150 - 25 }

/-- `autoLayoutNodes` from the node-utility module: every node is mapped
to a copy whose `position` is replaced by the computed layout position;
all other fields are spread through unchanged.  The layout positions are
computed only from the node ids and the edge list (the source feeds only
ids, fixed extents and edges to the layout library, never the current
positions). -/
def autoLayoutNodes (nodes : List Node) (edges : List Edge) : List Node :=
  let nodeIds := nodes.map (·.id)
  nodes.map (fun node => { node with position := layoutPosition nodeIds edges node.id })


/-! ### Lemmas about the `Map` model -/

theorem mapLookup_mapSet (m : AdjMap) (k k' : String) (v : List String) :
    mapLookup (mapSet m k v) k' = if k = k' then some v else mapLookup m k' := by
  induction m with
  | nil =>
    by_cases h : k = k' <;> simp [mapSet, mapLookup, h]
  | cons p rest ih =>
    obtain ⟨pk, pv⟩ := p
    by_cases h1 : pk = k
    · subst h1
      by_cases h2 : pk = k' <;> simp [mapSet, mapLookup, h2]
    · have h3 : ¬(k = pk) := fun h => h1 h.symm
      by_cases h2 : pk = k'
      · subst h2
        simp [mapSet, mapLookup, h1, h3]
      · simp [mapSet, mapLookup, h1, h2, h3, ih]

theorem mapGetD_mapSet (m : AdjMap) (k k' : String) (v : List String) :
    mapGetD (mapSet m k v) k' = if k = k' then v else mapGetD m k' := by
  by_cases h : k = k' <;> simp [mapGetD, mapLookup_mapSet, h]

/-! ### Characterization of the adjacency builders -/

theorem mapGetD_initAdj (ids : List String) (m : AdjMap)
    (h : ∀ k, mapGetD m k = []) (k : String) :
    mapGetD (ids.foldl (fun m nodeId => mapSet m nodeId []) m) k = [] := by
  induction ids generalizing m with
  | nil => exact h k
  | cons i rest ih =>
    refine ih _ (fun k' => ?_)
    rw [mapGetD_mapSet]
    split <;> simp [h]

theorem mapGetD_dirFold (edges : List Edge) (m : AdjMap) (x : String) :
    mapGetD (edges.foldl (fun m e => mapSet m e.source (mapGetD m e.source ++ [e.target])) m) x
      = mapGetD m x ++ (edges.filter (fun e => e.source == x)).map (fun e => e.target) := by
  induction edges generalizing m with
  | nil => simp
  | cons e rest ih =>
    rw [List.foldl_cons, ih, mapGetD_mapSet]
    by_cases h : e.source = x
    · simp [h, List.filter_cons]
    · have h' : (e.source == x) = false := by simp [h]
      simp [h, List.filter_cons, h']

theorem mapGetD_buildAdjacencyList (nodeIds : List String) (edges : List Edge) (x : String) :
    mapGetD (buildAdjacencyList nodeIds edges) x
      = (edges.filter (fun e => e.source == x)).map (fun e => e.target) := by
  unfold buildAdjacencyList
  rw [mapGetD_dirFold, mapGetD_initAdj]
  · simp
  · intro k
    rfl

theorem adjRel_buildAdjacencyList (nodeIds : List String) (edges : List Edge) (x y : String) :
    AdjRel (buildAdjacencyList nodeIds edges) x y ↔ DirStep edges x y := by
  simp only [AdjRel, mapGetD_buildAdjacencyList, List.mem_map, List.mem_filter, DirStep,
    beq_iff_eq]
  constructor
  · rintro ⟨e, ⟨he, hs⟩, ht⟩
    exact ⟨e, he, hs, ht⟩
  · rintro ⟨e, he, hs, ht⟩
    exact ⟨e, ⟨he, hs⟩, ht⟩

theorem mem_mapGetD_undirectedEdgeStep (m : AdjMap) (e : Edge) (x y : String) :
    y ∈ mapGetD (undirectedEdgeStep m e) x
      ↔ y ∈ mapGetD m x ∨ (e.source = x ∧ e.target = y) ∨ (e.target = x ∧ e.source = y) := by
  unfold undirectedEdgeStep
  by_cases hst : e.source = e.target
  · rw [if_pos hst]
    cases hl : mapLookup m e.source with
    | some l =>
      have hg : mapGetD m e.source = l := by simp [mapGetD, hl]
      by_cases hx : e.source = x
      · subst hx
        simp only [hl]
        rw [mapGetD_mapSet, if_pos rfl, hg, ← hst]
        simp [List.mem_append, eq_comm]
      · have hx2 : e.target ≠ x := fun h => hx (hst.trans h)
        simp only [hl]
        rw [mapGetD_mapSet, if_neg hx]
        simp [hx, hx2]
    | none =>
      have hg : mapGetD m e.source = [] := by simp [mapGetD, hl]
      by_cases hx : e.source = x
      · subst hx
        simp only [hl]
        rw [mapGetD_mapSet, if_pos rfl, hg, ← hst]
        simp [eq_comm]
      · have hx2 : e.target ≠ x := fun h => hx (hst.trans h)
        simp only [hl]
        rw [mapGetD_mapSet, if_neg hx]
        simp [hx, hx2]
  · rw [if_neg hst]
    by_cases htx : e.target = x
    · subst htx
      rw [mapGetD_mapSet, if_pos rfl]
      simp [List.mem_append, hst, eq_comm]
    · by_cases hsx : e.source = x
      · subst hsx
        have hts : e.target ≠ e.source := fun h => hst h.symm
        rw [mapGetD_mapSet, if_neg hts, mapGetD_mapSet, if_pos rfl]
        simp [List.mem_append, hts, htx, eq_comm]
      · rw [mapGetD_mapSet, if_neg htx, mapGetD_mapSet, if_neg hsx]
        simp [htx, hsx]

theorem mem_mapGetD_undirFold (edges : List Edge) (m : AdjMap) (x y : String) :
    y ∈ mapGetD (edges.foldl undirectedEdgeStep m) x
      ↔ y ∈ mapGetD m x
        ∨ ∃ e ∈ edges, (e.source = x ∧ e.target = y) ∨ (e.target = x ∧ e.source = y) := by
  induction edges generalizing m with
  | nil => simp
  | cons e rest ih =>
    rw [List.foldl_cons, ih, mem_mapGetD_undirectedEdgeStep]
    simp only [List.mem_cons]
    constructor
    · rintro ((h | h | h) | ⟨e', he', h⟩)
      · exact Or.inl h
      · exact Or.inr ⟨e, Or.inl rfl, Or.inl h⟩
      · exact Or.inr ⟨e, Or.inl rfl, Or.inr h⟩
      · exact Or.inr ⟨e', Or.inr he', h⟩
    · rintro (h | ⟨e', (rfl | he'), h⟩)
      · exact Or.inl (Or.inl h)
      · rcases h with h | h
        · exact Or.inl (Or.inr (Or.inl h))
        · exact Or.inl (Or.inr (Or.inr h))
      · exact Or.inr ⟨e', he', h⟩

theorem mem_mapGetD_buildUndirectedAdjacencyList (nodeIds : List String) (edges : List Edge)
    (x y : String) :
    y ∈ mapGetD (buildUndirectedAdjacencyList nodeIds edges) x ↔ UndirStep edges x y := by
  unfold buildUndirectedAdjacencyList
  rw [mem_mapGetD_undirFold, mapGetD_initAdj]
  · simp [UndirStep]
  · intro k
    rfl

/-! ### Claim C1: flag aggregation of `validateDAG` -/

/-- C1.  For every node list and edge list, `validateDAG` returns
`isValid = hasMinNodes AND (not hasCycles) AND allNodesConnected AND
(not hasSelfLoops)`, where `hasMinNodes` holds exactly when there are at
least two nodes and `hasSelfLoops` exactly when some edge has source
equal to target; all four flags are always populated (the record always
carries all of them with exactly these values, independent of the other
checks). -/
theorem validateDAG_flag_aggregation (nodes : List Node) (edges : List Edge) :
    (validateDAG nodes edges).isValid
      = ((validateDAG nodes edges).hasMinNodes && !(validateDAG nodes edges).hasCycles
          && (validateDAG nodes edges).allNodesConnected
          && !(validateDAG nodes edges).hasSelfLoops)
    ∧ ((validateDAG nodes edges).hasMinNodes = true ↔ 2 ≤ nodes.length)
    ∧ ((validateDAG nodes edges).hasSelfLoops = true ↔ ∃ e ∈ edges, e.source = e.target)
    ∧ (validateDAG nodes edges).allNodesConnected = isWeaklyConnected nodes edges := by
  refine ⟨rfl, by simp [validateDAG], ?_, rfl⟩
  simp [validateDAG, List.any_eq_true]

/-! ### Claim C9: `isValid` holds exactly when no error message is produced -/

/-- C9.  For every node list and edge list, the result of `validateDAG`
satisfies: `isValid` is true if and only if the `errors` sequence is
empty. -/
theorem validateDAG_isValid_iff_errors_nil (nodes : List Node) (edges : List Edge) :
    (validateDAG nodes edges).isValid = true ↔ (validateDAG nodes edges).errors = [] := by
  by_cases hmin : 2 ≤ nodes.length
  · by_cases hself : edges.any (fun e => e.source == e.target) = true
    · simp [validateDAG, hmin, hself]
    · by_cases hcyc : (if 0 < edges.length ∧ 1 < nodes.length then detectCycles nodes edges
          else false) = true
      · simp [validateDAG, hmin, hself, hcyc]
      · by_cases hconn : isWeaklyConnected nodes edges = true
        · simp [validateDAG, hmin, hself, hcyc, hconn]
        · have h1 : 1 < nodes.length := by omega
          simp [validateDAG, hmin, hself, hcyc, hconn, h1]
          intro
          split <;> simp
  · have h0 : nodes.length = 0 ∨ nodes.length = 1 := by omega
    rcases h0 with h0 | h0 <;> simp [validateDAG, hmin, h0]

/-! ### Correctness of the weak-connectivity depth-first search -/

theorem setAdd_eq_append (V : List String) (nid : String) (h : nid ∉ V) :
    setAdd V nid = V ++ [nid] := by
  simp [setAdd, h]

theorem toFinset_card_sdiff_succ_le (U V : List String) (nid : String)
    (hU : nid ∈ U) (hV : nid ∉ V) :
    (U.toFinset \ (V ++ [nid]).toFinset).card + 1 ≤ (U.toFinset \ V.toFinset).card := by
  have h1 : U.toFinset \ (V ++ [nid]).toFinset = (U.toFinset \ V.toFinset).erase nid := by
    ext b
    simp only [Finset.mem_sdiff, Finset.mem_erase, List.mem_toFinset, List.mem_append,
      List.mem_singleton]
    tauto
  have hmem : nid ∈ U.toFinset \ V.toFinset := by
    simp [Finset.mem_sdiff, List.mem_toFinset, hU, hV]
  rw [h1, Finset.card_erase_of_mem hmem]
  have hpos : 0 < (U.toFinset \ V.toFinset).card := Finset.card_pos.mpr ⟨nid, hmem⟩
  omega

theorem toFinset_card_sdiff_le_of_subset (U V V1 : List String) (h : V ⊆ V1) :
    (U.toFinset \ V1.toFinset).card ≤ (U.toFinset \ V.toFinset).card := by
  apply Finset.card_le_card
  intro a ha
  rw [Finset.mem_sdiff] at *
  refine ⟨ha.1, fun hc => ha.2 ?_⟩
  rw [List.mem_toFinset] at *
  exact h hc

/-- The conclusions established for a single call of `weakDfs`:
monotonicity, the start node is visited, every newly visited node is
reachable from the start node, newly visited nodes are fully explored,
and freedom from duplicates is preserved. -/
def WeakDfsPost (adj : AdjMap) (nid : String) (V W : List String) : Prop :=
  V ⊆ W ∧ nid ∈ W ∧
  (∀ x ∈ W, x ∈ V ∨ Relation.ReflTransGen (AdjRel adj) nid x) ∧
  (∀ x ∈ W, x ∉ V → ∀ y, AdjRel adj x y → y ∈ W) ∧
  (V.Nodup → W.Nodup)

theorem weakDfs_fold_spec (adj : AdjMap) (U : List String) (fuel : Nat)
    (IH : ∀ (V : List String) (nid : String),
      (U.toFinset \ V.toFinset).card < fuel → nid ∉ V → nid ∈ U →
      WeakDfsPost adj nid V (weakDfs adj fuel V nid)) :
    ∀ (nbs : List String) (V : List String),
      (U.toFinset \ V.toFinset).card < fuel → (∀ nb ∈ nbs, nb ∈ U) →
      (V ⊆ nbs.foldl (fun vis neighbor =>
          if neighbor ∈ vis then vis else weakDfs adj fuel vis neighbor) V) ∧
      (∀ nb ∈ nbs, nb ∈ nbs.foldl (fun vis neighbor =>
          if neighbor ∈ vis then vis else weakDfs adj fuel vis neighbor) V) ∧
      (∀ x ∈ nbs.foldl (fun vis neighbor =>
          if neighbor ∈ vis then vis else weakDfs adj fuel vis neighbor) V,
        x ∈ V ∨ ∃ nb ∈ nbs, Relation.ReflTransGen (AdjRel adj) nb x) ∧
      (∀ x ∈ nbs.foldl (fun vis neighbor =>
          if neighbor ∈ vis then vis else weakDfs adj fuel vis neighbor) V,
        x ∉ V → ∀ y, AdjRel adj x y → y ∈ nbs.foldl (fun vis neighbor =>
          if neighbor ∈ vis then vis else weakDfs adj fuel vis neighbor) V) ∧
      (V.Nodup → (nbs.foldl (fun vis neighbor =>
          if neighbor ∈ vis then vis else weakDfs adj fuel vis neighbor) V).Nodup) := by
  intro nbs
  induction nbs with
  | nil =>
    intro V hf hnbs
    refine ⟨fun x hx => hx, by simp, fun x hx => Or.inl hx, ?_, fun h => h⟩
    intro x hx hxV
    exact absurd hx hxV
  | cons nb rest ihr =>
    intro V hf hnbs
    by_cases hnb : nb ∈ V
    · rw [List.foldl_cons, if_pos hnb]
      obtain ⟨ra, rb, rc, rd, re⟩ := ihr V hf (fun z hz => hnbs z (List.mem_cons_of_mem _ hz))
      refine ⟨ra, ?_, ?_, ?_, re⟩
      · intro z hz
        rcases List.mem_cons.mp hz with rfl | hz'
        · exact ra hnb
        · exact rb z hz'
      · intro x hx
        rcases rc x hx with h | ⟨nb', hnb', hr⟩
        · exact Or.inl h
        · exact Or.inr ⟨nb', List.mem_cons_of_mem _ hnb', hr⟩
      · exact rd
    · rw [List.foldl_cons, if_neg hnb]
      obtain ⟨da, db, dc, dd, de⟩ := IH V nb hf hnb (hnbs nb (List.mem_cons_self _ _))
      have hf1 : (U.toFinset \ (weakDfs adj fuel V nb).toFinset).card < fuel :=
        lt_of_le_of_lt (toFinset_card_sdiff_le_of_subset U V _ da) hf
      obtain ⟨ra, rb, rc, rd, re⟩ :=
        ihr (weakDfs adj fuel V nb) hf1 (fun z hz => hnbs z (List.mem_cons_of_mem _ hz))
      refine ⟨fun x hx => ra (da hx), ?_, ?_, ?_, fun h => re (de h)⟩
      · intro z hz
        rcases List.mem_cons.mp hz with rfl | hz'
        · exact ra db
        · exact rb z hz'
      · intro x hx
        rcases rc x hx with h | ⟨nb', hnb', hr⟩
        · rcases dc x h with h' | hr'
          · exact Or.inl h'
          · exact Or.inr ⟨nb, List.mem_cons_self _ _, hr'⟩
        · exact Or.inr ⟨nb', List.mem_cons_of_mem _ hnb', hr⟩
      · intro x hx hxV y hrel
        by_cases hx1 : x ∈ weakDfs adj fuel V nb
        · exact ra (dd x hx1 hxV y hrel)
        · exact rd x hx hx1 y hrel

theorem weakDfs_spec (adj : AdjMap) (U : List String)
    (hU : ∀ x y, y ∈ mapGetD adj x → y ∈ U) :
    ∀ (fuel : Nat) (V : List String) (nid : String),
      (U.toFinset \ V.toFinset).card < fuel → nid ∉ V → nid ∈ U →
      WeakDfsPost adj nid V (weakDfs adj fuel V nid) := by
  intro fuel
  induction fuel with
  | zero =>
    intro V nid hf
    exact absurd hf (by omega)
  | succ fuel ih =>
    intro V nid hf hnV hnU
    have hstep : weakDfs adj (fuel + 1) V nid
        = (mapGetD adj nid).foldl (fun vis neighbor =>
            if neighbor ∈ vis then vis else weakDfs adj fuel vis neighbor) (V ++ [nid]) := by
      rw [weakDfs, setAdd_eq_append V nid hnV]
    have hf1 : (U.toFinset \ (V ++ [nid]).toFinset).card < fuel := by
      have := toFinset_card_sdiff_succ_le U V nid hnU hnV
      omega
    obtain ⟨la, lb, lc, ld, le⟩ := weakDfs_fold_spec adj U fuel ih (mapGetD adj nid)
      (V ++ [nid]) hf1 (fun z hz => hU nid z hz)
    rw [hstep]
    refine ⟨?_, ?_, ?_, ?_, ?_⟩
    · intro x hx
      exact la (List.mem_append_left _ hx)
    · exact la (List.mem_append_right _ (List.mem_singleton.mpr rfl))
    · intro x hx
      rcases lc x hx with h | ⟨nb, hnb, hr⟩
      · rcases List.mem_append.mp h with h' | h'
        · exact Or.inl h'
        · exact Or.inr (List.mem_singleton.mp h' ▸ Relation.ReflTransGen.refl)
      · exact Or.inr (Relation.ReflTransGen.head hnb hr)
    · intro x hx hxV y hrel
      by_cases hxn : x = nid
      · subst hxn
        exact lb y hrel
      · have hx1 : x ∉ V ++ [nid] := by
          intro hc
          rcases List.mem_append.mp hc with h' | h'
          · exact hxV h'
          · exact hxn (List.mem_singleton.mp h')
        exact ld x hx hx1 y hrel
    · intro hnd
      refine le ?_
      simp [List.nodup_append, hnd, hnV]

theorem weakDfs_visited_char (adj : AdjMap) (U : List String)
    (hU : ∀ x y, y ∈ mapGetD adj x → y ∈ U) (fuel : Nat) (start : String)
    (hf : U.toFinset.card < fuel) (hstart : start ∈ U) :
    (∀ x, x ∈ weakDfs adj fuel [] start ↔ Relation.ReflTransGen (AdjRel adj) start x) ∧
    (weakDfs adj fuel [] start).Nodup := by
  obtain ⟨a, b, c, d, e⟩ :=
    weakDfs_spec adj U hU fuel [] start (by simpa using hf) (by simp) hstart
  refine ⟨?_, e (by simp)⟩
  intro x
  constructor
  · intro hx
    rcases c x hx with h | h
    · simp at h
    · exact h
  · intro hr
    induction hr with
    | refl => exact b
    | tail h1 h2 ih => exact d _ ih (by simp) _ h2

theorem weakDfsVisited_char (nodes : List Node) (edges : List Edge)
    (hn : 1 ≤ nodes.length) :
    (∀ x, x ∈ weakDfsVisited nodes edges
        ↔ Relation.ReflTransGen (UndirStep edges) ((nodes.map (·.id)).headD "") x) ∧
    (weakDfsVisited nodes edges).Nodup := by
  have hrel : AdjRel (buildUndirectedAdjacencyList (nodes.map (·.id)) edges) = UndirStep edges := by
    funext x y
    simp only [AdjRel]
    exact propext (mem_mapGetD_buildUndirectedAdjacencyList (nodes.map (·.id)) edges x y)
  have hU : ∀ x y, y ∈ mapGetD (buildUndirectedAdjacencyList (nodes.map (·.id)) edges) x →
      y ∈ (nodes.map (·.id)).headD "" :: (edges.map (·.source) ++ edges.map (·.target)) := by
    intro x y hy
    have h := (mem_mapGetD_buildUndirectedAdjacencyList (nodes.map (·.id)) edges x y).mp hy
    obtain ⟨e, he, h⟩ := h
    rcases h with ⟨-, ht⟩ | ⟨-, hs⟩
    · exact List.mem_cons_of_mem _ (List.mem_append_right _ (List.mem_map.mpr ⟨e, he, ht⟩))
    · exact List.mem_cons_of_mem _ (List.mem_append_left _ (List.mem_map.mpr ⟨e, he, hs⟩))
  have hf : ((nodes.map (·.id)).headD "" ::
      (edges.map (·.source) ++ edges.map (·.target))).toFinset.card < weakFuel nodes edges := by
    have hle := List.toFinset_card_le ((nodes.map (·.id)).headD "" ::
      (edges.map (·.source) ++ edges.map (·.target)))
    simp only [List.length_cons, List.length_append, List.length_map] at hle
    simp only [weakFuel]
    omega
  have hstart : (nodes.map (·.id)).headD "" ∈ (nodes.map (·.id)).headD "" ::
      (edges.map (·.source) ++ edges.map (·.target)) := List.mem_cons_self _ _
  obtain ⟨hc, hd⟩ := weakDfs_visited_char (buildUndirectedAdjacencyList (nodes.map (·.id)) edges)
    _ hU (weakFuel nodes edges) ((nodes.map (·.id)).headD "") hf hstart
  rw [hrel] at hc
  exact ⟨hc, hd⟩

/-! ### Claim C7: behaviour of `isWeaklyConnected` -/

/-- C7 counterexample.  With nodes `A`, `B` and the single edge
`A -> X` to an id absent from the node set, `isWeaklyConnected` returns
`true` even though node `B` is never visited by the depth-first search:
the claimed "true iff every node id is visited" fails, because the code
only compares the visited count with the node count, and visited ids
need not be node ids. -/
theorem isWeaklyConnected_counterexample :
    isWeaklyConnected [⟨"A", "A", ⟨0, 0⟩⟩, ⟨"B", "B", ⟨0, 0⟩⟩] [⟨"e4", "A", "X"⟩] = true
    ∧ "B" ∈ ([⟨"A", "A", ⟨0, 0⟩⟩, ⟨"B", "B", ⟨0, 0⟩⟩] : List Node).map (·.id)
    ∧ "B" ∉ weakDfsVisited [⟨"A", "A", ⟨0, 0⟩⟩, ⟨"B", "B", ⟨0, 0⟩⟩] [⟨"e4", "A", "X"⟩] := by
  refine ⟨by decide, by decide, by decide⟩

/-- C7 amended.  `isWeaklyConnected` returns `true` for every graph with
at most one node, `false` for every graph with at least two nodes and no
edges, and otherwise returns `true` iff the number of distinct ids
visited by the depth-first search over the undirected adjacency (started
from the first node id in input order) equals the number of nodes — the
visited set is exactly the set of ids reachable from the start id along
the undirected edge relation, and may contain ids that are not node ids
when edges reference absent ids, so "count equals node count" is not the
same as "every node id is visited". -/
theorem isWeaklyConnected_spec (nodes : List Node) (edges : List Edge) :
    (nodes.length ≤ 1 → isWeaklyConnected nodes edges = true) ∧
    (2 ≤ nodes.length → edges = [] → isWeaklyConnected nodes edges = false) ∧
    (2 ≤ nodes.length → edges ≠ [] →
      ((isWeaklyConnected nodes edges = true ↔
          (weakDfsVisited nodes edges).length = nodes.length) ∧
        (weakDfsVisited nodes edges).Nodup ∧
        (∀ x, x ∈ weakDfsVisited nodes edges ↔
          Relation.ReflTransGen (UndirStep edges) ((nodes.map (·.id)).headD "") x))) := by
  refine ⟨?_, ?_, ?_⟩
  · intro h
    simp [isWeaklyConnected, h]
  · intro h2 he
    have h1 : ¬nodes.length ≤ 1 := by omega
    simp [isWeaklyConnected, h1, he]
  · intro h2 he
    have h1 : ¬nodes.length ≤ 1 := by omega
    have he' : ¬edges.length = 0 := by simpa [List.length_eq_zero] using he
    obtain ⟨hc, hd⟩ := weakDfsVisited_char nodes edges (by omega)
    refine ⟨?_, hd, hc⟩
    simp [isWeaklyConnected, h1, he']

/-- Witness for the amended C7 at a concrete input. -/
theorem isWeaklyConnected_spec_witness :
    2 ≤ ([⟨"A", "A", ⟨0, 0⟩⟩, ⟨"B", "B", ⟨0, 0⟩⟩] : List Node).length
    ∧ ([⟨"e1", "A", "B"⟩] : List Edge) ≠ []
    ∧ (isWeaklyConnected [⟨"A", "A", ⟨0, 0⟩⟩, ⟨"B", "B", ⟨0, 0⟩⟩] [⟨"e1", "A", "B"⟩] = true ↔
        (weakDfsVisited [⟨"A", "A", ⟨0, 0⟩⟩, ⟨"B", "B", ⟨0, 0⟩⟩] [⟨"e1", "A", "B"⟩]).length
          = ([⟨"A", "A", ⟨0, 0⟩⟩, ⟨"B", "B", ⟨0, 0⟩⟩] : List Node).length) := by
  refine ⟨by decide, by decide, ?_⟩
  exact ((isWeaklyConnected_spec [⟨"A", "A", ⟨0, 0⟩⟩, ⟨"B", "B", ⟨0, 0⟩⟩]
    [⟨"e1", "A", "B"⟩]).2.2 (by decide) (by decide)).1

/-! ### Correctness of the cycle-detection depth-first search -/

/-- The loop body of the neighbour fold inside `dfsHasCycle`, named so
that the fold can be reasoned about; it is definitionally the lambda in
the definition. -/
def cycleStep (adj : AdjMap) (fuel : Nat) (acc : Bool × List String × List String)
    (neighbor : String) : Bool × List String × List String :=
  match acc with
  | (true, v, s) => (true, v, s)
  | (false, v, s) =>
    if neighbor ∈ v then
      if neighbor ∈ s then (true, v, s) else (false, v, s)
    else dfsHasCycle adj fuel neighbor v s

theorem cycleFold_true (adj : AdjMap) (fuel : Nat) (nbs : List String)
    (v s : List String) :
    nbs.foldl (cycleStep adj fuel) (true, v, s) = (true, v, s) := by
  induction nbs with
  | nil => rfl
  | cons nb rest ih => rw [List.foldl_cons, cycleStep, ih]

/-- Invariant of the white/grey/black search: the recursion stack is
contained in the visited set, every successor of a black node (visited
and off-stack) is black, and no black node lies on a directed cycle. -/
def CycleInv (adj : AdjMap) (V S : List String) : Prop :=
  (∀ x ∈ S, x ∈ V) ∧
  (∀ x ∈ V, x ∉ S → ∀ y, AdjRel adj x y → y ∈ V ∧ y ∉ S) ∧
  (∀ x ∈ V, x ∉ S → ¬ Relation.TransGen (AdjRel adj) x x)

theorem cycleInv_reach (adj : AdjMap) (V S : List String)
    (h2 : ∀ x ∈ V, x ∉ S → ∀ y, AdjRel adj x y → y ∈ V ∧ y ∉ S)
    {x z : String} (hx : x ∈ V) (hxs : x ∉ S)
    (hr : Relation.ReflTransGen (AdjRel adj) x z) : z ∈ V ∧ z ∉ S := by
  induction hr with
  | refl => exact ⟨hx, hxs⟩
  | tail h1 hstep ih => exact h2 _ ih.1 ih.2 _ hstep

/-- The postcondition of one `dfsHasCycle` call: the visited set grows
and gains the argument; a `true` result exhibits a directed cycle
reachable from the argument; a `false` result restores the stack exactly
and preserves the invariant. -/
def CycleDfsPost (adj : AdjMap) (nid : String) (V S : List String)
    (r : Bool × List String × List String) : Prop :=
  V ⊆ r.2.1 ∧ nid ∈ r.2.1 ∧
  (r.1 = true → ∃ x, Relation.ReflTransGen (AdjRel adj) nid x ∧
    Relation.TransGen (AdjRel adj) x x) ∧
  (r.1 = false → r.2.2 = S ∧ CycleInv adj r.2.1 S)

theorem cycleFold_spec (adj : AdjMap) (U : List String)
    (hU : ∀ x y, y ∈ mapGetD adj x → y ∈ U) (fuel : Nat)
    (hIH : ∀ (nid : String) (V S : List String),
      (U.toFinset \ V.toFinset).card < fuel → nid ∉ V → nid ∈ U →
      CycleInv adj V S → (∀ y ∈ S, Relation.ReflTransGen (AdjRel adj) y nid) →
      CycleDfsPost adj nid V S (dfsHasCycle adj fuel nid V S))
    (nid : String) (S₁ : List String)
    (hreach : ∀ y ∈ S₁, Relation.ReflTransGen (AdjRel adj) y nid) :
    ∀ (nbs : List String) (V₀ : List String),
      (U.toFinset \ V₀.toFinset).card < fuel →
      CycleInv adj V₀ S₁ →
      (∀ nb ∈ nbs, AdjRel adj nid nb) →
      (V₀ ⊆ (nbs.foldl (cycleStep adj fuel) (false, V₀, S₁)).2.1) ∧
      ((nbs.foldl (cycleStep adj fuel) (false, V₀, S₁)).1 = true →
        ∃ x, Relation.ReflTransGen (AdjRel adj) nid x ∧
          Relation.TransGen (AdjRel adj) x x) ∧
      ((nbs.foldl (cycleStep adj fuel) (false, V₀, S₁)).1 = false →
        (nbs.foldl (cycleStep adj fuel) (false, V₀, S₁)).2.2 = S₁ ∧
        CycleInv adj (nbs.foldl (cycleStep adj fuel) (false, V₀, S₁)).2.1 S₁ ∧
        ∀ nb ∈ nbs, nb ∈ (nbs.foldl (cycleStep adj fuel) (false, V₀, S₁)).2.1 ∧ nb ∉ S₁) := by
  intro nbs
  induction nbs with
  | nil =>
    intro V₀ hf hInv hnbs
    refine ⟨fun x hx => hx, by simp, ?_⟩
    intro
    exact ⟨rfl, hInv, by simp⟩
  | cons nb rest ihr =>
    intro V₀ hf hInv hnbs
    have hrel : AdjRel adj nid nb := hnbs nb (List.mem_cons_self _ _)
    by_cases hnbV : nb ∈ V₀
    · by_cases hnbS : nb ∈ S₁
      · have hacc : cycleStep adj fuel (false, V₀, S₁) nb = (true, V₀, S₁) := by
          rw [cycleStep, if_pos hnbV, if_pos hnbS]
        rw [List.foldl_cons, hacc, cycleFold_true]
        refine ⟨fun x hx => hx, ?_, by simp⟩
        intro
        exact ⟨nb, Relation.ReflTransGen.single hrel,
          Relation.TransGen.tail' (hreach nb hnbS) hrel⟩
      · have hacc : cycleStep adj fuel (false, V₀, S₁) nb = (false, V₀, S₁) := by
          rw [cycleStep, if_pos hnbV, if_neg hnbS]
        rw [List.foldl_cons, hacc]
        obtain ⟨ra, rt, rf⟩ := ihr V₀ hf hInv (fun z hz => hnbs z (List.mem_cons_of_mem _ hz))
        refine ⟨ra, rt, ?_⟩
        intro hfalse
        obtain ⟨rs, rInv, rblack⟩ := rf hfalse
        refine ⟨rs, rInv, ?_⟩
        intro z hz
        rcases List.mem_cons.mp hz with rfl | hz'
        · exact ⟨ra hnbV, hnbS⟩
        · exact rblack z hz'
    · have hacc : cycleStep adj fuel (false, V₀, S₁) nb = dfsHasCycle adj fuel nb V₀ S₁ := by
        rw [cycleStep, if_neg hnbV]
      have hreach' : ∀ y ∈ S₁, Relation.ReflTransGen (AdjRel adj) y nb :=
        fun y hy => (hreach y hy).tail hrel
      have hpost := hIH nb V₀ S₁ hf hnbV (hU nid nb hrel) hInv hreach'
      rcases hdfs : dfsHasCycle adj fuel nb V₀ S₁ with ⟨b, v₁, s₁⟩
      rw [hdfs] at hpost
      obtain ⟨pa, pb, pt, pf⟩ := hpost
      cases b with
      | true =>
        rw [List.foldl_cons, hacc, hdfs, cycleFold_true]
        refine ⟨pa, ?_, by simp⟩
        intro
        obtain ⟨x, hx1, hx2⟩ := pt rfl
        exact ⟨x, Relation.ReflTransGen.head hrel hx1, hx2⟩
      | false =>
        obtain ⟨ps, pInv⟩ := pf rfl
        subst ps
        have hf1 : (U.toFinset \ v₁.toFinset).card < fuel :=
          lt_of_le_of_lt (toFinset_card_sdiff_le_of_subset U V₀ v₁ pa) hf
        obtain ⟨ra, rt, rf⟩ := ihr v₁ hf1 pInv (fun z hz => hnbs z (List.mem_cons_of_mem _ hz))
        rw [List.foldl_cons, hacc, hdfs]
        refine ⟨fun x hx => ra (pa hx), rt, ?_⟩
        intro hfalse
        obtain ⟨rs, rInv, rblack⟩ := rf hfalse
        refine ⟨rs, rInv, ?_⟩
        intro z hz
        rcases List.mem_cons.mp hz with rfl | hz'
        · exact ⟨ra pb, fun hc => hnbV (hInv.1 z hc)⟩
        · exact rblack z hz'

theorem erase_append_self (l : List String) (a : String) (h : a ∉ l) :
    (l ++ [a]).erase a = l := by
  induction l with
  | nil => simp
  | cons x xs ih =>
    have hxa : x ≠ a := fun hh => h (hh ▸ List.mem_cons_self x xs)
    have hxs : a ∉ xs := fun hh => h (List.mem_cons_of_mem _ hh)
    simp only [List.cons_append, List.erase_cons]
    rw [if_neg (by simpa using hxa), ih hxs]

theorem dfsHasCycle_spec (adj : AdjMap) (U : List String)
    (hU : ∀ x y, y ∈ mapGetD adj x → y ∈ U) :
    ∀ (fuel : Nat) (nid : String) (V S : List String),
      (U.toFinset \ V.toFinset).card < fuel → nid ∉ V → nid ∈ U →
      CycleInv adj V S → (∀ y ∈ S, Relation.ReflTransGen (AdjRel adj) y nid) →
      CycleDfsPost adj nid V S (dfsHasCycle adj fuel nid V S) := by
  intro fuel
  induction fuel with
  | zero =>
    intro nid V S hf
    exact absurd hf (by omega)
  | succ fuel ih =>
    intro nid V S hf hnV hnU hInv hreach
    have hnS : nid ∉ S := fun h => hnV (hInv.1 nid h)
    have hunf : dfsHasCycle adj (fuel + 1) nid V S
        = match (mapGetD adj nid).foldl (cycleStep adj fuel)
            (false, setAdd V nid, setAdd S nid) with
          | (true, v, s) => (true, v, s)
          | (false, v, s) => (false, v, s.erase nid) := rfl
    rw [setAdd_eq_append V nid hnV, setAdd_eq_append S nid hnS] at hunf
    have hInv1 : CycleInv adj (V ++ [nid]) (S ++ [nid]) := by
      obtain ⟨i1, i2, i3⟩ := hInv
      refine ⟨?_, ?_, ?_⟩
      · intro x hx
        rcases List.mem_append.mp hx with h | h
        · exact List.mem_append_left _ (i1 x h)
        · exact List.mem_append_right _ h
      · intro x hx hxS y hy
        have hxV : x ∈ V := by
          rcases List.mem_append.mp hx with h | h
          · exact h
          · exact absurd (List.mem_append_right S h) hxS
        have hxS0 : x ∉ S := fun h => hxS (List.mem_append_left _ h)
        obtain ⟨hyV, hyS⟩ := i2 x hxV hxS0 y hy
        refine ⟨List.mem_append_left _ hyV, ?_⟩
        intro hc
        rcases List.mem_append.mp hc with h | h
        · exact hyS h
        · exact hnV (List.mem_singleton.mp h ▸ hyV)
      · intro x hx hxS
        have hxV : x ∈ V := by
          rcases List.mem_append.mp hx with h | h
          · exact h
          · exact absurd (List.mem_append_right S h) hxS
        exact i3 x hxV (fun h => hxS (List.mem_append_left _ h))
    have hreach1 : ∀ y ∈ S ++ [nid], Relation.ReflTransGen (AdjRel adj) y nid := by
      intro y hy
      rcases List.mem_append.mp hy with h | h
      · exact hreach y h
      · exact List.mem_singleton.mp h ▸ Relation.ReflTransGen.refl
    have hf1 : (U.toFinset \ (V ++ [nid]).toFinset).card < fuel := by
      have := toFinset_card_sdiff_succ_le U V nid hnU hnV
      omega
    obtain ⟨qa, qt, qf⟩ := cycleFold_spec adj U hU fuel ih nid (S ++ [nid]) hreach1
      (mapGetD adj nid) (V ++ [nid]) hf1 hInv1 (fun nb h => h)
    rcases hfold : (mapGetD adj nid).foldl (cycleStep adj fuel)
        (false, V ++ [nid], S ++ [nid]) with ⟨b, v, s⟩
    rw [hfold] at hunf qa qt qf
    cases b with
    | true =>
      simp only at hunf qa qt qf
      rw [hunf]
      refine ⟨fun x hx => qa (List.mem_append_left _ hx),
        qa (List.mem_append_right _ (List.mem_singleton.mpr rfl)), fun h => qt trivial, ?_⟩
      intro h
      exact absurd h (by simp)
    | false =>
      simp only at hunf qa qt qf
      obtain ⟨qs, qInv, qblack⟩ := qf trivial
      subst qs
      rw [hunf]
      have hnidv : nid ∈ v := qa (List.mem_append_right _ (List.mem_singleton.mpr rfl))
      refine ⟨fun x hx => qa (List.mem_append_left _ hx), hnidv, by simp, ?_⟩
      intro
      refine ⟨erase_append_self S nid hnS, ?_, ?_, ?_⟩
      · intro x hx
        exact qa (List.mem_append_left _ (hInv.1 x hx))
      · intro x hx hxS y hy
        by_cases hxn : x = nid
        · obtain ⟨hyv, hyS1⟩ := qblack y (hxn ▸ hy)
          exact ⟨hyv, fun hc => hyS1 (List.mem_append_left _ hc)⟩
        · have hxS1 : x ∉ S ++ [nid] := by
            intro hc
            rcases List.mem_append.mp hc with h | h
            · exact hxS h
            · exact hxn (List.mem_singleton.mp h)
          obtain ⟨hyv, hyS1⟩ := qInv.2.1 x hx hxS1 y hy
          exact ⟨hyv, fun hc => hyS1 (List.mem_append_left _ hc)⟩
      · intro x hx hxS
        by_cases hxn : x = nid
        · intro hcyc
          rw [hxn] at hcyc
          obtain ⟨y, hy1, hy2⟩ := Relation.TransGen.head'_iff.mp hcyc
          obtain ⟨hyv, hyS1⟩ := qblack y hy1
          have := cycleInv_reach adj v (S ++ [nid]) qInv.2.1 hyv hyS1 hy2
          exact this.2 (List.mem_append_right _ (List.mem_singleton.mpr rfl))
        · have hxS1 : x ∉ S ++ [nid] := by
            intro hc
            rcases List.mem_append.mp hc with h | h
            · exact hxS h
            · exact hxn (List.mem_singleton.mp h)
          exact qInv.2.2 x hx hxS1

theorem cycleRootLoop_sound (adj : AdjMap) (U : List String)
    (hU : ∀ x y, y ∈ mapGetD adj x → y ∈ U) (fuel : Nat) :
    ∀ (roots V : List String),
      (U.toFinset \ V.toFinset).card < fuel → (∀ r ∈ roots, r ∈ U) → CycleInv adj V [] →
      cycleRootLoop adj fuel roots V [] = true →
      ∃ r ∈ roots, ∃ x, Relation.ReflTransGen (AdjRel adj) r x ∧
        Relation.TransGen (AdjRel adj) x x := by
  intro roots
  induction roots with
  | nil =>
    intro V hf hroots hInv h
    exact absurd h (by rw [cycleRootLoop]; simp)
  | cons r₁ rest ihr =>
    intro V hf hroots hInv h
    rw [cycleRootLoop] at h
    by_cases h1 : r₁ ∈ V
    · rw [if_pos h1] at h
      obtain ⟨r, hr, hx⟩ := ihr V hf (fun z hz => hroots z (List.mem_cons_of_mem _ hz)) hInv h
      exact ⟨r, List.mem_cons_of_mem _ hr, hx⟩
    · rw [if_neg h1] at h
      have hpost := dfsHasCycle_spec adj U hU fuel r₁ V [] hf h1
        (hroots r₁ (List.mem_cons_self _ _)) hInv (by simp)
      rcases hdfs : dfsHasCycle adj fuel r₁ V [] with ⟨b, v, s⟩
      rw [hdfs] at hpost h
      obtain ⟨pa, pb, pt, pf⟩ := hpost
      cases b with
      | true =>
        obtain ⟨x, hx1, hx2⟩ := pt rfl
        exact ⟨r₁, List.mem_cons_self _ _, x, hx1, hx2⟩
      | false =>
        obtain ⟨ps, pInv⟩ := pf rfl
        subst ps
        have hf1 : (U.toFinset \ v.toFinset).card < fuel :=
          lt_of_le_of_lt (toFinset_card_sdiff_le_of_subset U V v pa) hf
        obtain ⟨r, hr, hx⟩ := ihr v hf1
          (fun z hz => hroots z (List.mem_cons_of_mem _ hz)) pInv h
        exact ⟨r, List.mem_cons_of_mem _ hr, hx⟩

theorem cycleRootLoop_complete (adj : AdjMap) (U : List String)
    (hU : ∀ x y, y ∈ mapGetD adj x → y ∈ U) (fuel : Nat) :
    ∀ (roots V : List String),
      (U.toFinset \ V.toFinset).card < fuel → (∀ r ∈ roots, r ∈ U) → CycleInv adj V [] →
      (∃ r ∈ roots, ∃ x, Relation.ReflTransGen (AdjRel adj) r x ∧
        Relation.TransGen (AdjRel adj) x x) →
      cycleRootLoop adj fuel roots V [] = true := by
  intro roots
  induction roots with
  | nil =>
    intro V hf hroots hInv h
    simp at h
  | cons r₁ rest ihr =>
    intro V hf hroots hInv h
    obtain ⟨r, hr, x, hrx, hcyc⟩ := h
    rw [cycleRootLoop]
    by_cases h1 : r₁ ∈ V
    · rw [if_pos h1]
      rcases List.mem_cons.mp hr with rfl | hr'
      · exfalso
        have hblack := cycleInv_reach adj V [] hInv.2.1 h1 (by simp) hrx
        exact hInv.2.2 x hblack.1 (by simp) hcyc
      · exact ihr V hf (fun z hz => hroots z (List.mem_cons_of_mem _ hz)) hInv
          ⟨r, hr', x, hrx, hcyc⟩
    · rw [if_neg h1]
      have hpost := dfsHasCycle_spec adj U hU fuel r₁ V [] hf h1
        (hroots r₁ (List.mem_cons_self _ _)) hInv (by simp)
      rcases hdfs : dfsHasCycle adj fuel r₁ V [] with ⟨b, v, s⟩
      rw [hdfs] at hpost
      obtain ⟨pa, pb, pt, pf⟩ := hpost
      cases b with
      | true => rfl
      | false =>
        obtain ⟨ps, pInv⟩ := pf rfl
        subst ps
        have hf1 : (U.toFinset \ v.toFinset).card < fuel :=
          lt_of_le_of_lt (toFinset_card_sdiff_le_of_subset U V v pa) hf
        rcases List.mem_cons.mp hr with rfl | hr'
        · exfalso
          have hblack := cycleInv_reach adj v [] pInv.2.1 pb (by simp) hrx
          exact pInv.2.2 x hblack.1 (by simp) hcyc
        · exact ihr v hf1 (fun z hz => hroots z (List.mem_cons_of_mem _ hz)) pInv
            ⟨r, hr', x, hrx, hcyc⟩

theorem detectCycles_char (nodes : List Node) (edges : List Edge) :
    detectCycles nodes edges = true ↔
      ∃ r ∈ nodes.map (·.id), ∃ x, Relation.ReflTransGen (DirStep edges) r x ∧
        Relation.TransGen (DirStep edges) x x := by
  have hrel : AdjRel (buildAdjacencyList (nodes.map (·.id)) edges) = DirStep edges := by
    funext x y
    exact propext (adjRel_buildAdjacencyList (nodes.map (·.id)) edges x y)
  by_cases h0 : nodes.length = 0
  · have hn : nodes = [] := List.length_eq_zero.mp h0
    subst hn
    simp [detectCycles]
  · by_cases he : edges.length = 0
    · have hedg : edges = [] := List.length_eq_zero.mp he
      subst hedg
      simp only [detectCycles, he, decide_True, Bool.or_true, if_true]
      constructor
      · intro h
        simp at h
      · rintro ⟨r, hr, x, hrx, hcyc⟩
        obtain ⟨y, hy, -⟩ := Relation.TransGen.head'_iff.mp hcyc
        obtain ⟨e, hee, -⟩ := hy
        exact absurd hee (List.not_mem_nil e)
    · have hguard : detectCycles nodes edges
          = cycleRootLoop (buildAdjacencyList (nodes.map (·.id)) edges)
              (cycleFuel nodes edges) (nodes.map (·.id)) [] [] := by
        simp [detectCycles, h0, he]
      have hU : ∀ x y, y ∈ mapGetD (buildAdjacencyList (nodes.map (·.id)) edges) x →
          y ∈ nodes.map (·.id) ++ edges.map (·.source) ++ edges.map (·.target) := by
        intro x y hy
        rw [mapGetD_buildAdjacencyList] at hy
        obtain ⟨e, hee, ht⟩ := List.mem_map.mp hy
        exact List.mem_append_right _ (List.mem_map.mpr ⟨e, List.mem_of_mem_filter hee, ht⟩)
      have hroots : ∀ r ∈ nodes.map (·.id),
          r ∈ nodes.map (·.id) ++ edges.map (·.source) ++ edges.map (·.target) := by
        intro r hrr
        exact List.mem_append_left _ (List.mem_append_left _ hrr)
      have hf : (((nodes.map (·.id) ++ edges.map (·.source) ++ edges.map (·.target)).toFinset
            \ ([] : List String).toFinset)).card < cycleFuel nodes edges := by
        have hle := List.toFinset_card_le
          (nodes.map (·.id) ++ edges.map (·.source) ++ edges.map (·.target))
        simp only [List.length_append, List.length_map] at hle
        simp only [List.toFinset_nil, Finset.sdiff_empty, cycleFuel]
        omega
      have hInv : CycleInv (buildAdjacencyList (nodes.map (·.id)) edges) [] [] := by
        refine ⟨by simp, by simp, by simp⟩
      rw [hguard]
      constructor
      · intro h
        have := cycleRootLoop_sound (buildAdjacencyList (nodes.map (·.id)) edges)
          (nodes.map (·.id) ++ edges.map (·.source) ++ edges.map (·.target)) hU
          (cycleFuel nodes edges) (nodes.map (·.id)) [] hf hroots hInv h
        rwa [hrel] at this
      · intro h
        refine cycleRootLoop_complete (buildAdjacencyList (nodes.map (·.id)) edges)
          (nodes.map (·.id) ++ edges.map (·.source) ++ edges.map (·.target)) hU
          (cycleFuel nodes edges) (nodes.map (·.id)) [] hf hroots hInv ?_
        rwa [hrel]

/-! ### Claim C3: the `hasCycles` flag -/

theorem transGen_dirStep_nil (x : String) : ¬ Relation.TransGen (DirStep []) x x := by
  intro h
  obtain ⟨y, hy, -⟩ := Relation.TransGen.head'_iff.mp h
  obtain ⟨e, hee, -⟩ := hy
  exact absurd hee (List.not_mem_nil e)

/-- C3.  The `hasCycles` flag is true exactly when the depth-first search
can detect a directed cycle: that is, when there is more than one node
and some directed cycle of the edge relation is reachable from one of the
given node ids.  Consequently any acyclic edge relation yields
`hasCycles = false`, appending any single back-edge (an edge `u -> v`
where a directed path from `v` to `u` already exists and `v` is a node)
flips it to `true`, and the search is short-circuited to `false` whenever
the edge list is empty or there is at most one node. -/
theorem validateDAG_hasCycles_spec (nodes : List Node) (edges : List Edge) :
    ((validateDAG nodes edges).hasCycles = true ↔
      (1 < nodes.length ∧ ∃ r ∈ nodes.map (·.id), ∃ x,
        Relation.ReflTransGen (DirStep edges) r x ∧
          Relation.TransGen (DirStep edges) x x)) ∧
    (edges = [] ∨ nodes.length ≤ 1 → (validateDAG nodes edges).hasCycles = false) ∧
    ((∀ x, ¬ Relation.TransGen (DirStep edges) x x) →
      (validateDAG nodes edges).hasCycles = false) ∧
    (∀ (eid u v : String), 1 < nodes.length → v ∈ nodes.map (·.id) →
      Relation.ReflTransGen (DirStep edges) v u →
      (validateDAG nodes (edges ++ [⟨eid, u, v⟩])).hasCycles = true) := by
  have hfield : ∀ (es : List Edge), (validateDAG nodes es).hasCycles
      = if 0 < es.length ∧ 1 < nodes.length then detectCycles nodes es else false :=
    fun es => rfl
  have hmain : ∀ (es : List Edge), ((validateDAG nodes es).hasCycles = true ↔
      (1 < nodes.length ∧ ∃ r ∈ nodes.map (·.id), ∃ x,
        Relation.ReflTransGen (DirStep es) r x ∧ Relation.TransGen (DirStep es) x x)) := by
    intro es
    rw [hfield es]
    by_cases hg : 0 < es.length ∧ 1 < nodes.length
    · rw [if_pos hg, detectCycles_char]
      constructor
      · intro h
        exact ⟨hg.2, h⟩
      · intro h
        exact h.2
    · rw [if_neg hg]
      constructor
      · intro h
        exact absurd h (by simp)
      · rintro ⟨hn, r, hr, x, hrx, hcyc⟩
        have he : es.length = 0 := by omega
        have : es = [] := List.length_eq_zero.mp he
        subst this
        exact absurd hcyc (transGen_dirStep_nil x)
  refine ⟨hmain edges, ?_, ?_, ?_⟩
  · intro h
    rw [hfield edges]
    rcases h with h | h
    · subst h
      simp
    · have : ¬(0 < edges.length ∧ 1 < nodes.length) := by omega
      rw [if_neg this]
  · intro hacyc
    cases hb : (validateDAG nodes edges).hasCycles with
    | false => rfl
    | true =>
      obtain ⟨-, r, -, x, -, hcyc⟩ := (hmain edges).mp hb
      exact absurd hcyc (hacyc x)
  · intro eid u v hn hv hpath
    refine (hmain (edges ++ [⟨eid, u, v⟩])).mpr ⟨hn, v, hv, v, Relation.ReflTransGen.refl, ?_⟩
    have hmono : ∀ a b, DirStep edges a b → DirStep (edges ++ [⟨eid, u, v⟩]) a b := by
      rintro a b ⟨e, he, hs, ht⟩
      exact ⟨e, List.mem_append_left _ he, hs, ht⟩
    refine Relation.TransGen.tail' (Relation.ReflTransGen.mono hmono hpath) ?_
    exact ⟨⟨eid, u, v⟩, List.mem_append_right _ (List.mem_singleton.mpr rfl), rfl, rfl⟩

/-- Witness for C3 at a concrete input: the two-edge path `A -> B -> C`
is acyclic, and appending the back-edge `C -> A` flips `hasCycles` to
`true`. -/
theorem validateDAG_hasCycles_spec_witness :
    1 < ([⟨"A", "A", ⟨0, 0⟩⟩, ⟨"B", "B", ⟨0, 0⟩⟩, ⟨"C", "C", ⟨0, 0⟩⟩] : List Node).length
    ∧ (validateDAG [⟨"A", "A", ⟨0, 0⟩⟩, ⟨"B", "B", ⟨0, 0⟩⟩, ⟨"C", "C", ⟨0, 0⟩⟩]
        ([⟨"e1", "A", "B"⟩, ⟨"e2", "B", "C"⟩] ++ [⟨"e3", "C", "A"⟩])).hasCycles = true := by
  refine ⟨by decide, ?_⟩
  have h1 : DirStep [⟨"e1", "A", "B"⟩, ⟨"e2", "B", "C"⟩] "A" "B" :=
    ⟨⟨"e1", "A", "B"⟩, by simp, rfl, rfl⟩
  have h2 : DirStep [⟨"e1", "A", "B"⟩, ⟨"e2", "B", "C"⟩] "B" "C" :=
    ⟨⟨"e2", "B", "C"⟩, by simp, rfl, rfl⟩
  exact (validateDAG_hasCycles_spec
      [⟨"A", "A", ⟨0, 0⟩⟩, ⟨"B", "B", ⟨0, 0⟩⟩, ⟨"C", "C", ⟨0, 0⟩⟩]
      [⟨"e1", "A", "B"⟩, ⟨"e2", "B", "C"⟩]).2.2.2 "e3" "C" "A" (by decide) (by decide)
    ((Relation.ReflTransGen.refl.tail h1).tail h2)

/-! ### Claim C10: a self-loop on a present node is also a cycle -/

/-- C10.  For every input with more than one node whose edge list
contains a self-loop on a node present in the node set, `validateDAG`
reports `hasCycles = true` in addition to `hasSelfLoops = true`. -/
theorem validateDAG_selfLoop_cycles (nodes : List Node) (edges : List Edge) (e : Edge)
    (hn : 1 < nodes.length) (he : e ∈ edges) (hst : e.source = e.target)
    (hid : e.source ∈ nodes.map (·.id)) :
    (validateDAG nodes edges).hasCycles = true ∧
    (validateDAG nodes edges).hasSelfLoops = true := by
  constructor
  · have hfield : (validateDAG nodes edges).hasCycles
        = if 0 < edges.length ∧ 1 < nodes.length then detectCycles nodes edges else false := rfl
    have hpos : 0 < edges.length := List.length_pos.mpr (List.ne_nil_of_mem he)
    rw [hfield, if_pos ⟨hpos, hn⟩, detectCycles_char]
    exact ⟨e.source, hid, e.source, Relation.ReflTransGen.refl,
      Relation.TransGen.single ⟨e, he, rfl, hst.symm⟩⟩
  · have hfield : (validateDAG nodes edges).hasSelfLoops
        = edges.any (fun e => e.source == e.target) := rfl
    rw [hfield, List.any_eq_true]
    exact ⟨e, he, beq_iff_eq.mpr hst⟩

/-- Witness for C10 at a concrete input: a self-loop `A -> A` with nodes
`A`, `B`. -/
theorem validateDAG_selfLoop_cycles_witness :
    (validateDAG [⟨"A", "A", ⟨0, 0⟩⟩, ⟨"B", "B", ⟨0, 0⟩⟩] [⟨"e", "A", "A"⟩]).hasCycles = true ∧
    (validateDAG [⟨"A", "A", ⟨0, 0⟩⟩, ⟨"B", "B", ⟨0, 0⟩⟩] [⟨"e", "A", "A"⟩]).hasSelfLoops
      = true :=
  validateDAG_selfLoop_cycles [⟨"A", "A", ⟨0, 0⟩⟩, ⟨"B", "B", ⟨0, 0⟩⟩] [⟨"e", "A", "A"⟩]
    ⟨"e", "A", "A"⟩ (by decide) (by decide) (by decide) (by decide)

/-! ### Correctness of the reachability search of `wouldCreateCycle` -/

/-- The loop body of the fold inside `hasPathDfs`, definitionally the
lambda in the definition. -/
def pathStep (edges : List Edge) (toId : String) (fuel : Nat) (acc : Bool × List String)
    (t : String) : Bool × List String :=
  match acc with
  | (true, v) => (true, v)
  | (false, v) => hasPathDfs edges toId fuel v t

theorem pathFold_true (edges : List Edge) (toId : String) (fuel : Nat) (ts : List String)
    (v : List String) :
    ts.foldl (pathStep edges toId fuel) (true, v) = (true, v) := by
  induction ts with
  | nil => rfl
  | cons t rest ih => rw [List.foldl_cons, pathStep, ih]

/-- Postcondition of one `hasPathDfs` call: the visited set grows; a
`true` result exhibits a directed path to the goal; a `false` result
leaves the start visited and every newly visited id fully explored and
different from the goal. -/
def PathDfsPost (edges : List Edge) (toId fromId : String) (V : List String)
    (r : Bool × List String) : Prop :=
  V ⊆ r.2 ∧
  (r.1 = true → Relation.ReflTransGen (DirStep edges) fromId toId) ∧
  (r.1 = false → fromId ∈ r.2 ∧
    ∀ x ∈ r.2, x ∉ V → x ≠ toId ∧ ∀ y, DirStep edges x y → y ∈ r.2)

theorem mem_pathTargets (edges : List Edge) (fromId t : String) :
    t ∈ (edges.filter (fun e => e.source == fromId)).map (fun e => e.target)
      ↔ DirStep edges fromId t := by
  simp only [List.mem_map, List.mem_filter, beq_iff_eq, DirStep]
  constructor
  · rintro ⟨e, ⟨he, hs⟩, ht⟩
    exact ⟨e, he, hs, ht⟩
  · rintro ⟨e, he, hs, ht⟩
    exact ⟨e, ⟨he, hs⟩, ht⟩

theorem hasPathDfs_spec (edges : List Edge) (toId : String) (U : List String)
    (hU : ∀ e ∈ edges, e.target ∈ U) :
    ∀ (fuel : Nat) (V : List String) (fromId : String),
      (U.toFinset \ V.toFinset).card < fuel → fromId ∈ U →
      PathDfsPost edges toId fromId V (hasPathDfs edges toId fuel V fromId) := by
  intro fuel
  induction fuel with
  | zero =>
    intro V fromId hf
    exact absurd hf (by omega)
  | succ fuel ih =>
    intro V fromId hf hfU
    by_cases hto : fromId = toId
    · have hunf : hasPathDfs edges toId (fuel + 1) V fromId = (true, V) := by
        rw [hasPathDfs, if_pos hto]
      rw [hunf]
      exact ⟨fun x hx => hx, fun h => hto ▸ Relation.ReflTransGen.refl,
        fun h => absurd h (by simp)⟩
    · by_cases hvis : fromId ∈ V
      · have hunf : hasPathDfs edges toId (fuel + 1) V fromId = (false, V) := by
          rw [hasPathDfs, if_neg hto, if_pos hvis]
        rw [hunf]
        refine ⟨fun x hx => hx, fun h => absurd h (by simp), fun h => ⟨hvis, ?_⟩⟩
        intro x hx hxV
        exact absurd hx hxV
      · have hunf : hasPathDfs edges toId (fuel + 1) V fromId
            = ((edges.filter (fun e => e.source == fromId)).map (fun e => e.target)).foldl
                (pathStep edges toId fuel) (false, setAdd V fromId) := by
          rw [hasPathDfs, if_neg hto, if_neg hvis]
          rfl
        rw [hunf, setAdd_eq_append V fromId hvis]
        have hf1 : (U.toFinset \ (V ++ [fromId]).toFinset).card < fuel := by
          have := toFinset_card_sdiff_succ_le U V fromId hfU hvis
          omega
        have hfold : ∀ (ts : List String) (V₀ : List String),
            (U.toFinset \ V₀.toFinset).card < fuel → (∀ t ∈ ts, t ∈ U) →
            (V₀ ⊆ (ts.foldl (pathStep edges toId fuel) (false, V₀)).2) ∧
            ((ts.foldl (pathStep edges toId fuel) (false, V₀)).1 = true →
              ∃ t ∈ ts, Relation.ReflTransGen (DirStep edges) t toId) ∧
            ((ts.foldl (pathStep edges toId fuel) (false, V₀)).1 = false →
              (∀ t ∈ ts, t ∈ (ts.foldl (pathStep edges toId fuel) (false, V₀)).2) ∧
              ∀ x ∈ (ts.foldl (pathStep edges toId fuel) (false, V₀)).2, x ∉ V₀ →
                x ≠ toId ∧ ∀ y, DirStep edges x y →
                  y ∈ (ts.foldl (pathStep edges toId fuel) (false, V₀)).2) := by
          intro ts
          induction ts with
          | nil =>
            intro V₀ hf0 hts
            refine ⟨fun x hx => hx, fun h => absurd h (by simp), fun h => ⟨by simp, ?_⟩⟩
            intro x hx hxV
            exact absurd hx hxV
          | cons t rest ihts =>
            intro V₀ hf0 hts
            have hpost := ih V₀ t hf0 (hts t (List.mem_cons_self _ _))
            rcases hdfs : hasPathDfs edges toId fuel V₀ t with ⟨b, v₁⟩
            rw [hdfs] at hpost
            obtain ⟨pa, pt, pf⟩ := hpost
            have hstep : pathStep edges toId fuel (false, V₀) t = (b, v₁) := by
              rw [pathStep, hdfs]
            cases b with
            | true =>
              rw [List.foldl_cons, hstep, pathFold_true]
              refine ⟨pa, ?_, fun h => absurd h (by simp)⟩
              intro
              exact ⟨t, List.mem_cons_self _ _, pt rfl⟩
            | false =>
              obtain ⟨ptv, pclose⟩ := pf rfl
              have hf2 : (U.toFinset \ v₁.toFinset).card < fuel :=
                lt_of_le_of_lt (toFinset_card_sdiff_le_of_subset U V₀ v₁ pa) hf0
              obtain ⟨ra, rt, rf⟩ := ihts v₁ hf2
                (fun z hz => hts z (List.mem_cons_of_mem _ hz))
              rw [List.foldl_cons, hstep]
              refine ⟨fun x hx => ra (pa hx), ?_, ?_⟩
              · intro h
                obtain ⟨t', ht', hr⟩ := rt h
                exact ⟨t', List.mem_cons_of_mem _ ht', hr⟩
              · intro h
                obtain ⟨rmem, rclose⟩ := rf h
                constructor
                · intro z hz
                  rcases List.mem_cons.mp hz with rfl | hz'
                  · exact ra ptv
                  · exact rmem z hz'
                · intro x hx hxV
                  by_cases hx1 : x ∈ v₁
                  · obtain ⟨hne, hsucc⟩ := pclose x hx1 hxV
                    exact ⟨hne, fun y hy => ra (hsucc y hy)⟩
                  · exact rclose x hx hx1
        have hts : ∀ z ∈ (edges.filter (fun e => e.source == fromId)).map
            (fun e => e.target), z ∈ U := by
          intro z hz
          obtain ⟨e, he, -, ht⟩ := (mem_pathTargets edges fromId z).mp hz
          exact ht ▸ hU e he
        obtain ⟨qa, qt, qf⟩ := hfold
          ((edges.filter (fun e => e.source == fromId)).map (fun e => e.target))
          (V ++ [fromId]) hf1 hts
        refine ⟨fun x hx => qa (List.mem_append_left _ hx), ?_, ?_⟩
        · intro h
          obtain ⟨t, ht, hr⟩ := qt h
          exact Relation.ReflTransGen.head ((mem_pathTargets edges fromId t).mp ht) hr
        · intro h
          obtain ⟨qmem, qclose⟩ := qf h
          refine ⟨qa (List.mem_append_right _ (List.mem_singleton.mpr rfl)), ?_⟩
          intro x hx hxV
          by_cases hxf : x = fromId
          · subst hxf
            refine ⟨hto, ?_⟩
            intro y hy
            exact qmem y ((mem_pathTargets edges x y).mpr hy)
          · have hx1 : x ∉ V ++ [fromId] := by
              intro hc
              rcases List.mem_append.mp hc with h' | h'
              · exact hxV h'
              · exact hxf (List.mem_singleton.mp h')
            exact qclose x hx hx1

theorem wouldCreateCycle_char (sourceId targetId : String) (edges : List Edge) :
    wouldCreateCycle sourceId targetId edges = true
      ↔ Relation.ReflTransGen (DirStep edges) targetId sourceId := by
  have hU : ∀ e ∈ edges, e.target ∈ targetId :: edges.map (·.target) := by
    intro e he
    exact List.mem_cons_of_mem _ (List.mem_map.mpr ⟨e, he, rfl⟩)
  have hf : ((targetId :: edges.map (·.target)).toFinset
      \ ([] : List String).toFinset).card < edges.length + 2 := by
    have hle := List.toFinset_card_le (targetId :: edges.map (·.target))
    simp only [List.length_cons, List.length_map] at hle
    simp only [List.toFinset_nil, Finset.sdiff_empty]
    omega
  have hpost := hasPathDfs_spec edges sourceId (targetId :: edges.map (·.target)) hU
    (edges.length + 2) [] targetId hf (List.mem_cons_self _ _)
  have hwc : wouldCreateCycle sourceId targetId edges
      = (hasPathDfs edges sourceId (edges.length + 2) [] targetId).1 := rfl
  rcases hdfs : hasPathDfs edges sourceId (edges.length + 2) [] targetId with ⟨b, v⟩
  rw [hdfs] at hpost
  obtain ⟨pa, pt, pf⟩ := hpost
  rw [hwc, hdfs]
  cases b with
  | true => simp [pt rfl]
  | false =>
    obtain ⟨ptv, pclose⟩ := pf rfl
    simp only [Bool.false_eq_true, false_iff]
    intro hr
    have hmem : ∀ z, Relation.ReflTransGen (DirStep edges) targetId z → z ∈ v := by
      intro z hz
      induction hz with
      | refl => exact ptv
      | tail h1 hstep ihz => exact (pclose _ ihz (by simp)).2 _ hstep
    exact (pclose sourceId (hmem sourceId hr) (by simp)).1 rfl

/-! ### Claim C2: the connection guard -/

/-- C2.  `canConnectNodes a b E` applies its three checks in order:
it rejects a self-connection when `a = b` with the reason about
connecting a node to itself; otherwise it rejects with "Connection
already exists" when `E` already contains an edge `a -> b`; otherwise it
rejects with "Would create a cycle" exactly when a directed path from `b`
to `a` exists over `E`; and otherwise it accepts with no reason. -/
theorem canConnectNodes_spec (a b : String) (E : List Edge) :
    (a = b → canConnectNodes a b E
      = { canConnect := false, reason := some "Cannot connect node to itself" }) ∧
    (a ≠ b → (∃ e ∈ E, e.source = a ∧ e.target = b) →
      canConnectNodes a b E
        = { canConnect := false, reason := some "Connection already exists" }) ∧
    (a ≠ b → ¬(∃ e ∈ E, e.source = a ∧ e.target = b) →
      Relation.ReflTransGen (DirStep E) b a →
      canConnectNodes a b E
        = { canConnect := false, reason := some "Would create a cycle" }) ∧
    (a ≠ b → ¬(∃ e ∈ E, e.source = a ∧ e.target = b) →
      ¬Relation.ReflTransGen (DirStep E) b a →
      canConnectNodes a b E = { canConnect := true, reason := none }) := by
  have hany : (E.any (fun e => e.source == a && e.target == b) = true)
      ↔ (∃ e ∈ E, e.source = a ∧ e.target = b) := by
    simp [List.any_eq_true]
  refine ⟨?_, ?_, ?_, ?_⟩
  · intro h
    rw [canConnectNodes, if_pos h]
  · intro h1 h2
    rw [canConnectNodes, if_neg h1, if_pos (hany.mpr h2)]
  · intro h1 h2 h3
    have hex : E.any (fun e => e.source == a && e.target == b) = false := by
      cases hb : E.any (fun e => e.source == a && e.target == b) with
      | false => rfl
      | true => exact absurd (hany.mp hb) h2
    have hwc : wouldCreateCycle a b E = true := (wouldCreateCycle_char a b E).mpr h3
    rw [canConnectNodes, if_neg h1, hex, if_neg (by simp), if_pos hwc]
  · intro h1 h2 h3
    have hex : E.any (fun e => e.source == a && e.target == b) = false := by
      cases hb : E.any (fun e => e.source == a && e.target == b) with
      | false => rfl
      | true => exact absurd (hany.mp hb) h2
    have hwc : wouldCreateCycle a b E = false := by
      cases hb : wouldCreateCycle a b E with
      | false => rfl
      | true => exact absurd ((wouldCreateCycle_char a b E).mp hb) h3
    rw [canConnectNodes, if_neg h1, hex, if_neg (by simp), if_neg (by simp [hwc])]

/-- Witness for C2 at a concrete input: with the path `A -> B -> C`
present, connecting `C` to `A` is rejected as creating a cycle. -/
theorem canConnectNodes_spec_witness :
    canConnectNodes "C" "A" [⟨"e1", "A", "B"⟩, ⟨"e2", "B", "C"⟩]
      = { canConnect := false, reason := some "Would create a cycle" } := by
  have h1 : DirStep [⟨"e1", "A", "B"⟩, ⟨"e2", "B", "C"⟩] "A" "B" :=
    ⟨⟨"e1", "A", "B"⟩, by simp, rfl, rfl⟩
  have h2 : DirStep [⟨"e1", "A", "B"⟩, ⟨"e2", "B", "C"⟩] "B" "C" :=
    ⟨⟨"e2", "B", "C"⟩, by simp, rfl, rfl⟩
  exact (canConnectNodes_spec "C" "A" [⟨"e1", "A", "B"⟩, ⟨"e2", "B", "C"⟩]).2.2.1
    (by decide) (by decide) ((Relation.ReflTransGen.refl.tail h1).tail h2)

/-! ### Claim C5: appending a duplicate edge changes no flag -/

theorem dirStep_append_dup (edges : List Edge) (e : Edge)
    (hdup : ∃ e' ∈ edges, e'.source = e.source ∧ e'.target = e.target) :
    DirStep (edges ++ [e]) = DirStep edges := by
  obtain ⟨e', he', hs, ht⟩ := hdup
  funext x y
  apply propext
  constructor
  · rintro ⟨f, hf, hfs, hft⟩
    rcases List.mem_append.mp hf with h | h
    · exact ⟨f, h, hfs, hft⟩
    · have hfe : f = e := List.mem_singleton.mp h
      subst hfe
      exact ⟨e', he', hs.trans hfs, ht.trans hft⟩
  · rintro ⟨f, hf, hfs, hft⟩
    exact ⟨f, List.mem_append_left _ hf, hfs, hft⟩

theorem undirStep_append_dup (edges : List Edge) (e : Edge)
    (hdup : ∃ e' ∈ edges, e'.source = e.source ∧ e'.target = e.target) :
    UndirStep (edges ++ [e]) = UndirStep edges := by
  obtain ⟨e', he', hs, ht⟩ := hdup
  funext x y
  apply propext
  constructor
  · rintro ⟨f, hf, hor⟩
    rcases List.mem_append.mp hf with h | h
    · exact ⟨f, h, hor⟩
    · have hfe : f = e := List.mem_singleton.mp h
      subst hfe
      rcases hor with ⟨h1, h2⟩ | ⟨h1, h2⟩
      · exact ⟨e', he', Or.inl ⟨hs.trans h1, ht.trans h2⟩⟩
      · exact ⟨e', he', Or.inr ⟨ht.trans h1, hs.trans h2⟩⟩
  · rintro ⟨f, hf, hor⟩
    exact ⟨f, List.mem_append_left _ hf, hor⟩

theorem bool_eq_of_true_iff {b c : Bool} (h : b = true ↔ c = true) : b = c := by
  cases b <;> cases c <;> simp_all

/-- C5.  Appending a duplicate edge — one whose `(source, target)` pair
already occurs in the edge list — leaves every flag of the
`DAGValidationResult` unchanged (and the validator, being a total
function, cannot crash on duplicate edges). -/
theorem validateDAG_duplicate_edge (nodes : List Node) (edges : List Edge) (e : Edge)
    (hdup : ∃ e' ∈ edges, e'.source = e.source ∧ e'.target = e.target) :
    (validateDAG nodes (edges ++ [e])).isValid = (validateDAG nodes edges).isValid ∧
    (validateDAG nodes (edges ++ [e])).hasMinNodes = (validateDAG nodes edges).hasMinNodes ∧
    (validateDAG nodes (edges ++ [e])).hasCycles = (validateDAG nodes edges).hasCycles ∧
    (validateDAG nodes (edges ++ [e])).hasSelfLoops
      = (validateDAG nodes edges).hasSelfLoops ∧
    (validateDAG nodes (edges ++ [e])).allNodesConnected
      = (validateDAG nodes edges).allNodesConnected := by
  obtain ⟨e', he', hs, ht⟩ := hdup
  have hpos : 0 < edges.length := List.length_pos.mpr (List.ne_nil_of_mem he')
  have hDir : DirStep (edges ++ [e]) = DirStep edges :=
    dirStep_append_dup edges e ⟨e', he', hs, ht⟩
  have hUndir : UndirStep (edges ++ [e]) = UndirStep edges :=
    undirStep_append_dup edges e ⟨e', he', hs, ht⟩
  have hminfield : ∀ es : List Edge,
      (validateDAG nodes es).hasMinNodes = decide (2 ≤ nodes.length) := fun es => rfl
  have hmin : (validateDAG nodes (edges ++ [e])).hasMinNodes
      = (validateDAG nodes edges).hasMinNodes := by
    rw [hminfield, hminfield]
  have hselffield : ∀ es : List Edge, (validateDAG nodes es).hasSelfLoops
      = es.any (fun f => f.source == f.target) := fun es => rfl
  have hself : (validateDAG nodes (edges ++ [e])).hasSelfLoops
      = (validateDAG nodes edges).hasSelfLoops := by
    rw [hselffield, hselffield]
    simp only [List.any_append, List.any_cons, List.any_nil, Bool.or_false]
    by_cases hfe : (e.source == e.target) = true
    · have hany : edges.any (fun f => f.source == f.target) = true :=
        List.any_eq_true.mpr ⟨e', he', by rw [hs, ht]; exact hfe⟩
      rw [hany, hfe]
      rfl
    · have hfe' : (e.source == e.target) = false := by
        cases hb : (e.source == e.target) with
        | false => rfl
        | true => exact absurd hb hfe
      rw [hfe', Bool.or_false]
  have hcycfield : ∀ es : List Edge, (validateDAG nodes es).hasCycles
      = if 0 < es.length ∧ 1 < nodes.length then detectCycles nodes es else false :=
    fun es => rfl
  have hcyc : (validateDAG nodes (edges ++ [e])).hasCycles
      = (validateDAG nodes edges).hasCycles := by
    rw [hcycfield, hcycfield]
    by_cases hn : 1 < nodes.length
    · rw [if_pos ⟨by simp, hn⟩, if_pos ⟨hpos, hn⟩]
      apply bool_eq_of_true_iff
      rw [detectCycles_char, detectCycles_char, hDir]
    · rw [if_neg (fun hc => hn hc.2), if_neg (fun hc => hn hc.2)]
  have hconn : (validateDAG nodes (edges ++ [e])).allNodesConnected
      = (validateDAG nodes edges).allNodesConnected := by
    have hconnfield : ∀ es : List Edge, (validateDAG nodes es).allNodesConnected
        = isWeaklyConnected nodes es := fun es => rfl
    rw [hconnfield, hconnfield]
    by_cases hn1 : nodes.length ≤ 1
    · simp [isWeaklyConnected, hn1]
    · have hlen1 : ¬(edges ++ [e]).length = 0 := by simp
      have hlen2 : ¬edges.length = 0 := by omega
      obtain ⟨hc1, hd1⟩ := weakDfsVisited_char nodes (edges ++ [e]) (by omega)
      obtain ⟨hc2, hd2⟩ := weakDfsVisited_char nodes edges (by omega)
      rw [hUndir] at hc1
      have hmem : ∀ x, x ∈ weakDfsVisited nodes (edges ++ [e])
          ↔ x ∈ weakDfsVisited nodes edges :=
        fun x => (hc1 x).trans (hc2 x).symm
      have hlen : (weakDfsVisited nodes (edges ++ [e])).length
          = (weakDfsVisited nodes edges).length :=
        ((List.perm_ext_iff_of_nodup hd1 hd2).mpr hmem).length_eq
      simp only [isWeaklyConnected, if_neg hn1, hlen1, hlen2, if_neg, hlen]
  have hvalidfield : ∀ es : List Edge, (validateDAG nodes es).isValid
      = ((validateDAG nodes es).hasMinNodes && !(validateDAG nodes es).hasCycles
          && (validateDAG nodes es).allNodesConnected
          && !(validateDAG nodes es).hasSelfLoops) := fun es => rfl
  refine ⟨?_, hmin, hcyc, hself, hconn⟩
  rw [hvalidfield, hvalidfield, hmin, hcyc, hself, hconn]

/-- Witness for C5 at a concrete input: appending the duplicate
`A -> B` edge `e9` changes no flag. -/
theorem validateDAG_duplicate_edge_witness :
    (validateDAG [⟨"A", "A", ⟨0, 0⟩⟩, ⟨"B", "B", ⟨0, 0⟩⟩]
        ([⟨"e1", "A", "B"⟩] ++ [⟨"e9", "A", "B"⟩])).isValid
      = (validateDAG [⟨"A", "A", ⟨0, 0⟩⟩, ⟨"B", "B", ⟨0, 0⟩⟩] [⟨"e1", "A", "B"⟩]).isValid ∧
    (validateDAG [⟨"A", "A", ⟨0, 0⟩⟩, ⟨"B", "B", ⟨0, 0⟩⟩]
        ([⟨"e1", "A", "B"⟩] ++ [⟨"e9", "A", "B"⟩])).hasCycles
      = (validateDAG [⟨"A", "A", ⟨0, 0⟩⟩, ⟨"B", "B", ⟨0, 0⟩⟩] [⟨"e1", "A", "B"⟩]).hasCycles :=
  ⟨(validateDAG_duplicate_edge [⟨"A", "A", ⟨0, 0⟩⟩, ⟨"B", "B", ⟨0, 0⟩⟩] [⟨"e1", "A", "B"⟩]
      ⟨"e9", "A", "B"⟩ (by decide)).1,
   (validateDAG_duplicate_edge [⟨"A", "A", ⟨0, 0⟩⟩, ⟨"B", "B", ⟨0, 0⟩⟩] [⟨"e1", "A", "B"⟩]
      ⟨"e9", "A", "B"⟩ (by decide)).2.2.1⟩

/-! ### Claim C4: edges with absent endpoints are tolerated but not ignored -/

/-- C4 counterexample.  Edges whose endpoints are absent from the node
set are not ignored by the adjacency builders: with nodes `A`, `B`, the
dangling edge `A -> X` flips `isWeaklyConnected` from `true` to `false`
(the search walks through `X` and the visited count no longer matches),
and the dangling pair `A -> X`, `X -> A` makes `detectCycles` report a
cycle that disappears when one of them is removed — so neither cycle
detection nor weak-connectivity behaves as if such an edge were absent. -/
theorem danglingEdge_counterexample :
    isWeaklyConnected [⟨"A", "A", ⟨0, 0⟩⟩, ⟨"B", "B", ⟨0, 0⟩⟩]
        [⟨"e1", "A", "B"⟩, ⟨"e4", "A", "X"⟩] = false
    ∧ isWeaklyConnected [⟨"A", "A", ⟨0, 0⟩⟩, ⟨"B", "B", ⟨0, 0⟩⟩] [⟨"e1", "A", "B"⟩] = true
    ∧ detectCycles [⟨"A", "A", ⟨0, 0⟩⟩, ⟨"B", "B", ⟨0, 0⟩⟩]
        [⟨"e4", "A", "X"⟩, ⟨"e5", "X", "A"⟩] = true
    ∧ detectCycles [⟨"A", "A", ⟨0, 0⟩⟩, ⟨"B", "B", ⟨0, 0⟩⟩] [⟨"e4", "A", "X"⟩] = false := by
  refine ⟨by decide, by decide, by decide, by decide⟩

/-- C4 amended.  An edge whose source or target id is absent from the
node set is tolerated without throwing (every engine function is total
and returns a result), but it is not ignored for adjacency purposes: the
builders record every edge — the target is appended to the directed
adjacency of its source, and each endpoint to the undirected adjacency of
the other — whether or not the endpoints are node ids, so cycle detection
and weak-connectivity may differ from the graph with the edge removed. -/
theorem adjacency_records_every_edge (nodeIds : List String) (edges : List Edge) (e : Edge)
    (he : e ∈ edges) :
    e.target ∈ mapGetD (buildAdjacencyList nodeIds edges) e.source ∧
    e.target ∈ mapGetD (buildUndirectedAdjacencyList nodeIds edges) e.source ∧
    e.source ∈ mapGetD (buildUndirectedAdjacencyList nodeIds edges) e.target := by
  refine ⟨?_, ?_, ?_⟩
  · rw [mapGetD_buildAdjacencyList]
    exact List.mem_map.mpr ⟨e, List.mem_filter.mpr ⟨he, by simp⟩, rfl⟩
  · exact (mem_mapGetD_buildUndirectedAdjacencyList nodeIds edges e.source e.target).mpr
      ⟨e, he, Or.inl ⟨rfl, rfl⟩⟩
  · exact (mem_mapGetD_buildUndirectedAdjacencyList nodeIds edges e.target e.source).mpr
      ⟨e, he, Or.inr ⟨rfl, rfl⟩⟩

/-- Witness for the amended C4: the dangling edge `A -> X` (with `X`
absent from the node ids) is recorded by both builders. -/
theorem adjacency_records_every_edge_witness :
    "X" ∈ mapGetD (buildAdjacencyList ["A", "B"] [⟨"e4", "A", "X"⟩]) "A" ∧
    "X" ∈ mapGetD (buildUndirectedAdjacencyList ["A", "B"] [⟨"e4", "A", "X"⟩]) "A" ∧
    "A" ∈ mapGetD (buildUndirectedAdjacencyList ["A", "B"] [⟨"e4", "A", "X"⟩]) "X" :=
  adjacency_records_every_edge ["A", "B"] [⟨"e4", "A", "X"⟩] ⟨"e4", "A", "X"⟩ (by decide)

/-! ### Claims C6 and C8: the layout function -/

/-- C6.  `autoLayoutNodes` is total — as a Lean function it always
returns, with no error or non-termination even on cyclic or disconnected
graphs (the rank propagation is bounded by the node count) — and its
result covers every input node: the output has the same length and the
same ids in the same order, each node carrying a computed position. -/
theorem autoLayoutNodes_total (nodes : List Node) (edges : List Edge) :
    (autoLayoutNodes nodes edges).length = nodes.length ∧
    (autoLayoutNodes nodes edges).map (·.id) = nodes.map (·.id) ∧
    ∀ n ∈ nodes, ∃ m ∈ autoLayoutNodes nodes edges, m.id = n.id ∧
      m.position = layoutPosition (nodes.map (·.id)) edges n.id := by
  refine ⟨by simp [autoLayoutNodes], ?_, ?_⟩
  · simp only [autoLayoutNodes, List.map_map]
    rfl
  · intro n hn
    refine ⟨{ n with position := layoutPosition (nodes.map (·.id)) edges n.id }, ?_, rfl, rfl⟩
    simp only [autoLayoutNodes]
    exact List.mem_map.mpr ⟨n, hn, rfl⟩

theorem autoLayoutNodes_positions_from_ids (nodes' nodes : List Node) (edges : List Edge)
    (h : nodes'.map (·.id) = nodes.map (·.id)) :
    (autoLayoutNodes nodes' edges).map (·.position)
      = (autoLayoutNodes nodes edges).map (·.position) := by
  simp only [autoLayoutNodes, h, List.map_map]
  have hcomp : ∀ ms : List Node,
      ms.map ((fun n : Node => n.position) ∘ (fun node : Node =>
        { node with position := layoutPosition (nodes.map (·.id)) edges node.id }))
        = (ms.map (·.id)).map (layoutPosition (nodes.map (·.id)) edges) := by
    intro ms
    rw [List.map_map]
    rfl
  rw [hcomp, hcomp, h]

/-- C8.  `autoLayoutNodes` is idempotent: applying it to its own output
(with the same edge list) returns the same list of nodes, because the
computed positions depend only on the node ids and the edges, never on
the input positions, and every non-position field is passed through
unchanged. -/
theorem autoLayoutNodes_idempotent (nodes : List Node) (edges : List Edge) :
    autoLayoutNodes (autoLayoutNodes nodes edges) edges = autoLayoutNodes nodes edges ∧
    (autoLayoutNodes nodes edges).map (fun n => (n.id, n.label))
      = nodes.map (fun n => (n.id, n.label)) ∧
    (∀ nodes' : List Node, nodes'.map (·.id) = nodes.map (·.id) →
      (autoLayoutNodes nodes' edges).map (·.position)
        = (autoLayoutNodes nodes edges).map (·.position)) := by
  have hids : (autoLayoutNodes nodes edges).map (·.id) = nodes.map (·.id) := by
    simp only [autoLayoutNodes, List.map_map]
    rfl
  refine ⟨?_, ?_, fun nodes' h => autoLayoutNodes_positions_from_ids nodes' nodes edges h⟩
  · show autoLayoutNodes (autoLayoutNodes nodes edges) edges = autoLayoutNodes nodes edges
    simp only [autoLayoutNodes] at hids ⊢
    rw [hids, List.map_map]
    have hgg : ((fun node : Node =>
        { node with position :=
          layoutPosition (nodes.map (fun n : Node => n.id)) edges node.id }) ∘
          (fun node : Node =>
        { node with position :=
          layoutPosition (nodes.map (fun n : Node => n.id)) edges node.id }))
        = (fun node : Node =>
        { node with position :=
          layoutPosition (nodes.map (fun n : Node => n.id)) edges node.id }) := by
      funext n
      cases n
      rfl
    rw [hgg]
  · simp only [autoLayoutNodes, List.map_map]
    rfl

/-- Witness for C6 at a concrete input: node `A` is covered by the
layout of the two-node graph. -/
theorem autoLayoutNodes_total_witness :
    (⟨"A", "A", ⟨0, 0⟩⟩ : Node) ∈ ([⟨"A", "A", ⟨0, 0⟩⟩, ⟨"B", "B", ⟨0, 0⟩⟩] : List Node)
    ∧ ∃ m ∈ autoLayoutNodes [⟨"A", "A", ⟨0, 0⟩⟩, ⟨"B", "B", ⟨0, 0⟩⟩] [⟨"e1", "A", "B"⟩],
        m.id = (⟨"A", "A", ⟨0, 0⟩⟩ : Node).id ∧
        m.position = layoutPosition (([⟨"A", "A", ⟨0, 0⟩⟩, ⟨"B", "B", ⟨0, 0⟩⟩] :
          List Node).map (·.id)) [⟨"e1", "A", "B"⟩] (⟨"A", "A", ⟨0, 0⟩⟩ : Node).id :=
  ⟨by decide, (autoLayoutNodes_total [⟨"A", "A", ⟨0, 0⟩⟩, ⟨"B", "B", ⟨0, 0⟩⟩]
    [⟨"e1", "A", "B"⟩]).2.2 ⟨"A", "A", ⟨0, 0⟩⟩ (by decide)⟩

/-- Witness for C8 at a concrete input: a node list with the same ids
but different labels and positions gets identical layout positions. -/
theorem autoLayoutNodes_idempotent_witness :
    (([⟨"A", "lbl", ⟨5, 5⟩⟩, ⟨"B", "B", ⟨7, 7⟩⟩] : List Node).map (·.id)
      = ([⟨"A", "A", ⟨0, 0⟩⟩, ⟨"B", "B", ⟨0, 0⟩⟩] : List Node).map (·.id))
    ∧ (autoLayoutNodes [⟨"A", "lbl", ⟨5, 5⟩⟩, ⟨"B", "B", ⟨7, 7⟩⟩] [⟨"e1", "A", "B"⟩]).map
        (·.position)
      = (autoLayoutNodes [⟨"A", "A", ⟨0, 0⟩⟩, ⟨"B", "B", ⟨0, 0⟩⟩] [⟨"e1", "A", "B"⟩]).map
        (·.position) :=
  ⟨by decide, (autoLayoutNodes_idempotent [⟨"A", "A", ⟨0, 0⟩⟩, ⟨"B", "B", ⟨0, 0⟩⟩]
    [⟨"e1", "A", "B"⟩]).2.2 [⟨"A", "lbl", ⟨5, 5⟩⟩, ⟨"B", "B", ⟨7, 7⟩⟩] (by decide)⟩
